import Mathlib

/-!
Verification of the PDF batch-processing core of `pdf_tools`.

This file embeds, as executable Lean definitions, the object-graph
traversal and page-classification core of the repository:

* `_resolve`              (src/tools/utils.py lines 56-73, duplicated in
                           src/pdf_batch_tools.py lines 83-99)
* `_get_inherited`        (src/tools/utils.py lines 76-105)
* `page_has_images`       (src/tools/utils.py lines 132-163)
* `content_stream_bytes`, `count_alnum`
                          (src/tools/utils.py lines 108-129)
* `is_blank_page`         (src/tools/blank_page.py lines 27-89)
* `split_every_n_pages`   (src/tools/split_pages.py lines 44-79)
* `_strip_tags_from_writer` (src/tools/utils.py lines 166-201)
* `remove_blank_pages`    (src/tools/blank_page.py lines 92-147)
* `strip_tags` / `scrub_markinfo_anywhere` (src/convert.py lines 10-98)

and proves / refutes the frozen specification claims about them.

Modelling conventions for the Python/pypdf layer:

* A pypdf value is a `Val`.  Dictionary-like pypdf objects
  (`DictionaryObject`, `PageObject`, `StreamObject`) are `Val.dict`
  (in pypdf all of them are `dict` subclasses, so `isinstance(x, dict)`
  is true exactly for `Val.dict`).  `NameObject` and pypdf text-string
  objects are `str` subclasses; both are modelled by `Val.name`.
  `Val.ref` is an `IndirectObject`; `Val.foreign` models a non-pypdf
  object that has neither a `get_object` method nor the mapping
  protocol, so every attribute access on it raises.
* Python `None` is modelled by `Option.none` at the call sites where the
  source can observe it (`dict.get` of a missing key, `get_object`
  returning `None`, ...), never by a `Val` constructor.
* Exceptions are modelled explicitly by `Except` where the source
  catches them; a caught exception is an `Except.error` consumed by the
  handler, so the top-level functions are total, which is exactly the
  source's "never raises" behaviour.
* Python `is` identity in `_resolve`'s `nxt is obj` test is modelled as
  follows.  A direct pypdf object's `get_object()` returns `self`, so
  the test is always true there and the loop breaks at once.  For an
  `IndirectObject` the only identity that can recur is another reference
  with the same object id; when the ids are equal the Python loop either
  breaks at once (same instance) or keeps re-deriving an equal reference
  until the hop bound — both return that same reference — so the model
  breaks on equal ids, which is result-preserving.
-/

/-- A pypdf runtime value, as discriminated by the source's
`isinstance` / `hasattr` probes. -/
inductive Val where
  | null : Val
  | name : String → Val
  | num : Int → Val
  | dict : List (String × Val) → Val
  | ref : Nat → Val
  | foreign : Nat → Val

/-- Outcome of calling `get_object()` on an `IndirectObject`: the reader
may return a value, return Python `None`, or raise. -/
inductive GetRes where
  | val : Val → GetRes
  | pyNone : GetRes
  | raised : GetRes

/-- The ambient `PdfReader`: how each indirect-object id dereferences. -/
structure Doc where
  table : Nat → GetRes

/-- `d.get(k)` on a Python dict: the value of the first matching key, or
Python `None` when the key is absent. -/
def pyGet (es : List (String × Val)) (k : String) : Option Val :=
  match es.find? (fun e => e.1 == k) with
  | some e => some e.2
  | none => none

/-- `hasattr(obj, "get_object")`: every pypdf `PdfObject` has it (the
base class returns `self`); only foreign objects lack it. -/
def hasGetObject : Val → Bool
  | Val.foreign _ => false
  | _ => true

/-- One `obj.get_object()` call: an `IndirectObject` goes through the
reader's table; every other pypdf object returns itself. -/
def getObject (d : Doc) : Val → GetRes
  | Val.ref i => d.table i
  | v => GetRes.val v

/-- The loop body of `_resolve` (src/tools/utils.py lines 62-70) without
its `try`: `Except.error` carries the value current when `get_object`
raised, which is what the handler returns. -/
def resolveCore (d : Doc) : Nat → Val → Except Val Val
  | 0, obj => Except.ok obj
  | Nat.succ fuel, obj =>
    match obj with
    | Val.foreign i => Except.ok (Val.foreign i)
    | Val.ref i =>
      match d.table i with
      | GetRes.raised => Except.error (Val.ref i)
      | GetRes.pyNone => Except.ok (Val.ref i)
      | GetRes.val (Val.ref j) =>
        if j == i then Except.ok (Val.ref i) else resolveCore d fuel (Val.ref j)
      | GetRes.val nxt => resolveCore d fuel nxt
    | v => Except.ok v

/-- `_resolve(obj, max_hops)` (src/tools/utils.py lines 56-73): bounded
dereferencing with the surrounding `try/except` returning the current
value on failure. -/
def _resolve (d : Doc) (max_hops : Nat) (obj : Val) : Val :=
  match resolveCore d max_hops obj with
  | Except.ok v => v
  | Except.error v => v

/-- Number of successful `get_object` dereference steps `_resolve`
performs before stopping. -/
def resolveSteps (d : Doc) : Nat → Val → Nat
  | 0, _ => 0
  | Nat.succ fuel, obj =>
    match obj with
    | Val.foreign _ => 0
    | Val.ref i =>
      match d.table i with
      | GetRes.raised => 0
      | GetRes.pyNone => 0
      | GetRes.val (Val.ref j) =>
        if j == i then 0 else resolveSteps d fuel (Val.ref j) + 1
      | GetRes.val nxt => resolveSteps d fuel nxt + 1
    | _ => 0

/-- The body of the `while cur is not None and hops < 10` loop of
`_get_inherited` (src/tools/utils.py lines 88-104).  The `Option Val`
is the Python variable `cur`, `none` being Python `None`.  For a
dictionary node the key is returned resolved when present, otherwise the
walk resolves `/Parent` and continues; `cur.get` on any non-mapping
value raises, the exception handler breaks the loop, and `None` is
returned. -/
def getInheritedAux (d : Doc) (nm : String) : Nat → Option Val → Option Val
  | _, none => none
  | 0, some _ => none
  | Nat.succ fuel, some cur =>
    match cur with
    | Val.dict es =>
      match pyGet es nm with
      | some v => some (_resolve d 5 v)
      | none => getInheritedAux d nm fuel ((pyGet es "/Parent").map (fun v => _resolve d 5 v))
    | _ => none

/-- `_get_inherited(page_like, name)` (src/tools/utils.py lines 76-105):
walk up the `/Parent` chain for at most 10 hops looking for `name`. -/
def _get_inherited (d : Doc) (page_like : Val) (nm : String) : Option Val :=
  getInheritedAux d nm 10 (some (_resolve d 5 page_like))

/-- Python truthiness of a pypdf value, for `if not resources:`
(src/tools/utils.py line 138): strings (including `NameObject`) are
falsy when empty, numbers when zero, dicts when empty; other objects
use the default truthiness. -/
def pyTruthy : Val → Bool
  | Val.name s => !s.isEmpty
  | Val.num n => !(n == 0)
  | Val.dict es => !es.isEmpty
  | _ => true

/-- `x.get("/Subtype")` as the source calls it on a non-dict entry
(src/tools/utils.py lines 147-151): our non-mapping values have no
`get` attribute, so the call raises and the handler `continue`s. -/
def pyGetAttr (x : Val) (nm : String) : Except Unit (Option Val) :=
  match x with
  | Val.dict es => Except.ok (pyGet es nm)
  | _ => Except.error ()

mutual

/-- `page_has_images(resources)` (src/tools/utils.py lines 132-163).
The `Nat` is the remaining Python recursion-depth budget: each nested
`Form` recursion consumes one level, and exhausting it models the
`RecursionError` that the outer `except Exception: return True` turns
into a conservative `True`. -/
def page_has_images (d : Doc) : Nat → Option Val → Bool
  | 0, _ => true
  | Nat.succ _, none => false
  | Nat.succ fuel, some rv =>
    if pyTruthy rv then
      match _resolve d 5 rv with
      | Val.dict es =>
        match (pyGet es "/XObject").map (fun v => _resolve d 5 v) with
        | some (Val.dict xs) => scanXObjects d fuel xs
        | _ => false
      | _ => false
    else false
termination_by fuel _ => (fuel, 0)

/-- The `for _, x in list(xobjs.items())` loop of `page_has_images`.
A non-dict entry's `x.get(NameObject("/Subtype"))` raises
(`pyGetAttr` is an `Except.error`) and the inner handler `continue`s,
which is the last match arm.  A `/Subtype` that is not a string maps
through `subtype and str(subtype)` to a representation that is never
the name literal `"/Image"` or `"/Form"`, so it also falls to the
continue arm. -/
def scanXObjects (d : Doc) : Nat → List (String × Val) → Bool
  | _, [] => false
  | fuel, e :: rest =>
    match _resolve d 5 e.2 with
    | Val.dict es =>
      match pyGet es "/Subtype" with
      | some (Val.name s) =>
        if s == "/Image" then true
        else if s == "/Form" then
          if page_has_images d fuel ((pyGet es "/Resources").map (fun v => _resolve d 5 v)) then
            true
          else scanXObjects d fuel rest
        else scanXObjects d fuel rest
      | _ => scanXObjects d fuel rest
    | _ => scanXObjects d fuel rest
termination_by fuel l => (fuel, l.length + 1)

end

/-- Python's default recursion limit, the depth budget available to
`page_has_images` when the classifier calls it. -/
def pyRecursionLimit : Nat := 1000

/-- Character class of the source regex `[0-9A-Za-zÄÖÜäöüß]`
(src/tools/utils.py line 128). -/
def isAlnumGer (c : Char) : Bool :=
  ('0' ≤ c && c ≤ '9') || ('A' ≤ c && c ≤ 'Z') || ('a' ≤ c && c ≤ 'z') ||
  c == 'Ä' || c == 'Ö' || c == 'Ü' || c == 'ä' || c == 'ö' || c == 'ü' || c == 'ß'

/-- `count_alnum(text)` (src/tools/utils.py lines 124-129). -/
def count_alnum (s : String) : Nat :=
  (s.data.filter isAlnumGer).length

/-- Python `str.isspace` on the whitespace the sources produce
(ASCII whitespace characters). -/
def pyIsSpace (c : Char) : Bool :=
  c == ' ' || c == '\t' || c == '\n' || c == '\r' || c == '\x0b' || c == '\x0c'

/-- `sum(1 for c in txt if not c.isspace())`
(src/tools/blank_page.py line 48). -/
def countNonWs (s : String) : Nat :=
  (s.data.filter (fun c => !pyIsSpace c)).length

/-- What `page.get_contents()` returned: it may raise, return `None`, a
single object, or a list of objects; each object either has `get_data`
(its decoded byte length is recorded) or not. -/
inductive ContentsResult where
  | raised : ContentsResult
  | pyNone : ContentsResult
  | single : Option Nat → ContentsResult
  | multi : List (Option Nat) → ContentsResult

/-- `content_stream_bytes(page)` (src/tools/utils.py lines 108-121). -/
def content_stream_bytes : ContentsResult → Nat
  | ContentsResult.raised => 0
  | ContentsResult.pyNone => 0
  | ContentsResult.single (some n) => n
  | ContentsResult.single none => 0
  | ContentsResult.multi objs => (objs.filterMap id).sum

/-- A pypdf page as the classifier consumes it: the result of
`extract_text()` (which may raise or return `None`), the result of
`get_contents()`, and the page's dictionary entries (a `PageObject` is
a `DictionaryObject`). -/
structure Page where
  extractText : Except Unit (Option String)
  contents : ContentsResult
  node : List (String × Val)

/-- The `txt` local of `is_blank_page`: `page.extract_text() or ""`
with the `except Exception: txt = ""` handler
(src/tools/blank_page.py lines 42-45). -/
def pageText (p : Page) : String :=
  match p.extractText with
  | Except.error _ => ""
  | Except.ok none => ""
  | Except.ok (some s) => s

/-- The five tunable thresholds of `is_blank_page`
(src/tools/blank_page.py lines 29-33), with the source's defaults in
`defaultParams`.  The float threshold is modelled exactly as a
rational. -/
structure BlankParams where
  text_len_threshold : Int
  min_alnum_chars : Nat
  min_alnum_ratio : Rat
  min_stream_bytes : Nat
  treat_any_image_as_nonblank : Bool

/-- Source default parameter values of `is_blank_page`. -/
def defaultParams : BlankParams := ⟨1, 5, 1/5, 40, true⟩

/-- `is_blank_page(page, ...)` (src/tools/blank_page.py lines 27-89,
duplicated in src/pdf_batch_tools.py lines 180-234).  `_dead` is the
source's no-op branch `if len(txt.strip()) >= text_len_threshold and
alnum_count == 0: pass` (lines 68-70), the only reader of
`text_len_threshold`. -/
def is_blank_page (d : Doc) (p : Page) (ps : BlankParams) : Bool :=
  let txt := pageText p
  let alnum_count := count_alnum txt
  let non_ws_chars := countNonWs txt
  let alnum_ratio : Rat := if non_ws_chars = 0 then 0 else (alnum_count : Rat) / (non_ws_chars : Rat)
  let stream_bytes := content_stream_bytes p.contents
  if alnum_count ≥ ps.min_alnum_chars ∧ alnum_ratio ≥ ps.min_alnum_ratio then false
  else
    let _dead : Bool := decide (((txt.trim.length : Int) ≥ ps.text_len_threshold) ∧ alnum_count = 0)
    if stream_bytes > ps.min_stream_bytes then false
    else
      if ps.treat_any_image_as_nonblank = true ∧
          page_has_images d pyRecursionLimit (_get_inherited d (Val.dict p.node) "/Resources") = true then
        false
      else true

/-- The spec's `ClassificationVerdict`: `Blank` or `NonBlank` with a
reason code. -/
inductive Verdict where
  | NonBlank : String → Verdict
  | Blank : String → Verdict
deriving DecidableEq

/-- Modelled from the spec: the Page Blankness Classifier contract of
section 4.4, rules 1-4 applied in order with the first matching rule
winning, producing the verdict and reason code the spec names.  Written
from the spec's words to compare against the source's
`is_blank_page`. -/
def classifierSpec (d : Doc) (p : Page) (ps : BlankParams) : Verdict :=
  let txt := pageText p
  let alnum_count := count_alnum txt
  let non_ws_chars := countNonWs txt
  let alnum_ratio : Rat := if non_ws_chars = 0 then 0 else (alnum_count : Rat) / (non_ws_chars : Rat)
  if alnum_count ≥ ps.min_alnum_chars ∧ alnum_ratio ≥ ps.min_alnum_ratio then
    Verdict.NonBlank "alnum_threshold"
  else if content_stream_bytes p.contents > ps.min_stream_bytes then
    Verdict.NonBlank "stream_bytes"
  else if ps.treat_any_image_as_nonblank = true ∧
      page_has_images d pyRecursionLimit (_get_inherited d (Val.dict p.node) "/Resources") = true then
    Verdict.NonBlank "image_found"
  else Verdict.Blank "below_thresholds"

/-- The `while idx < total` loop of `split_every_n_pages`
(src/tools/split_pages.py lines 65-78): each round takes up to `n`
consecutive pages starting at `idx` and advances `idx` by `n`.  The
`0, _ :: _` arm is unreachable because the caller rejects `n <= 0`. -/
def splitChunks {α : Type} : Nat → List α → List (List α)
  | _, [] => []
  | 0, _ :: _ => []
  | Nat.succ m, x :: xs => (x :: xs.take m) :: splitChunks (Nat.succ m) (xs.drop m)
termination_by _ l => l.length
decreasing_by
  simp only [List.length_drop, List.length_cons]
  omega

/-- `split_every_n_pages(src_pdf, out_dir, n)` at the page-partition
level (src/tools/split_pages.py lines 44-79, duplicated in
src/pdf_batch_tools.py lines 60-81): `n <= 0` raises `ValueError`,
otherwise the source pages are partitioned in order. -/
def split_every_n_pages {α : Type} (pages : List α) (n : Nat) :
    Except String (List (List α)) :=
  if n = 0 then Except.error "split_every_n_pages requires n > 0"
  else Except.ok (splitChunks n pages)

/-- `del es[k]` guarded by `if k in es`: remove the key from a
dictionary's entry list. -/
def delKey (es : List (String × Val)) (k : String) : List (String × Val) :=
  es.filter (fun e => !(e.1 == k))

/-- `k in es` on a dictionary's entry list. -/
def hasKey (es : List (String × Val)) (k : String) : Bool :=
  es.any (fun e => e.1 == k)

/-- A `pypdf.PdfWriter` as the tools observe it: its catalog
(`writer._root_object`) and its page objects. -/
structure PdfWriter where
  catalog : List (String × Val)
  pages : List Page

/-- The `del mi[NameObject("/Marked")]` scrub applied to a `/MarkInfo`
value when it is a dictionary (src/tools/utils.py lines 183-185). -/
def delMarked : Val → Val
  | Val.dict es => Val.dict (delKey es "/Marked")
  | v => v

/-- `_strip_tags_from_writer(writer)` (src/tools/utils.py lines
166-201): delete `/StructTreeRoot`, `/MarkInfo`, `/RoleMap` from the
catalog; the follow-up `if "/MarkInfo" in root` block (dead after the
deletion, kept for fidelity) scrubs `/Marked`; then delete `/Tabs` and
`/StructParents` from every page. -/
def _strip_tags_from_writer (w : PdfWriter) : PdfWriter :=
  let cat1 := delKey (delKey (delKey w.catalog "/StructTreeRoot") "/MarkInfo") "/RoleMap"
  let cat2 :=
    if hasKey cat1 "/MarkInfo" then
      cat1.map (fun e => if e.1 == "/MarkInfo" then (e.1, delMarked e.2) else e)
    else cat1
  let pages1 := w.pages.map (fun p =>
    ⟨p.extractText, p.contents, delKey (delKey p.node "/Tabs") "/StructParents"⟩)
  ⟨cat2, pages1⟩

/-- The catalog a freshly constructed `pypdf.PdfWriter` starts with:
`/Type /Catalog` and a `/Pages` tree reference, none of the tagging
keys. -/
def freshCatalog : List (String × Val) :=
  [("/Type", Val.name "/Catalog"), ("/Pages", Val.ref 0)]

/-- The per-part writer construction of `split_every_n_pages`
(src/tools/split_pages.py lines 67-75): a fresh writer receives the
part's pages, is tag-stripped, and is written out. -/
def splitDocs (srcPages : List Page) (n : Nat) : Except String (List PdfWriter) :=
  match split_every_n_pages srcPages n with
  | Except.error e => Except.error e
  | Except.ok parts =>
    Except.ok (parts.map (fun ps => _strip_tags_from_writer ⟨freshCatalog, ps⟩))

/-- `remove_blank_pages(src, dst, ...)` at the document level
(src/tools/blank_page.py lines 92-147): keep the pages the classifier
does not call blank; if none are kept, either copy the source document
verbatim (`shutil.copy2`, the `fallback_on_all_blank` default) or write
a fresh empty writer; otherwise tag-strip a fresh writer holding the
kept pages.  The result is the document written to `dst_pdf`, the
source document being the catalog/page pair it was read from. -/
def remove_blank_pages_doc (d : Doc) (srcCatalog : List (String × Val))
    (srcPages : List Page) (ps : BlankParams) (fallback_on_all_blank : Bool) : PdfWriter :=
  let kept := srcPages.filter (fun p => !is_blank_page d p ps)
  if kept.isEmpty then
    if fallback_on_all_blank then ⟨srcCatalog, srcPages⟩
    else ⟨freshCatalog, []⟩
  else _strip_tags_from_writer ⟨freshCatalog, kept⟩

/-- The tagging-removal invariant of the spec (section 3): the written
document references no Structure-Tree, Mark-Information, Role-Map or
Class-Map in its catalog and no Structural-Parent or Tab-order key on
any page. -/
def tagFree (w : PdfWriter) : Bool :=
  !hasKey w.catalog "/StructTreeRoot" && !hasKey w.catalog "/MarkInfo" &&
  !hasKey w.catalog "/RoleMap" && !hasKey w.catalog "/ClassMap" &&
  w.pages.all (fun p => !hasKey p.node "/StructParents" && !hasKey p.node "/Tabs")

/-- A file-system operation performed while writing an output document.
`openW` is `path.open("wb")` (create or truncate), `writeChunk` appends
one chunk of the serialized document, `closeF` closes the handle, and
`rename` is an atomic rename (never performed by this code, present so
the atomic-write claim is expressible). -/
inductive FsOp where
  | openW : String → FsOp
  | writeChunk : String → Nat → FsOp
  | closeF : String → FsOp
  | rename : String → String → FsOp
deriving DecidableEq

/-- File-system contents: which paths exist and their byte contents. -/
def FsState : Type := List (String × List Nat)

/-- Contents of `p`, or `none` when no file exists at `p`. -/
def fileAt (s : FsState) (p : String) : Option (List Nat) :=
  (s.find? (fun e => e.1 == p)).map (fun e => e.2)

/-- Replace or create the file at `p` with contents `c`. -/
def setFile (s : FsState) (p : String) (c : List Nat) : FsState :=
  if (s.find? (fun e => e.1 == p)).isSome then
    s.map (fun e => if e.1 == p then (e.1, c) else e)
  else (p, c) :: s

/-- Effect of one operation on the file system. -/
def applyOp (s : FsState) : FsOp → FsState
  | FsOp.openW p => setFile s p []
  | FsOp.writeChunk p b =>
    s.map (fun e => if e.1 == p then (e.1, e.2 ++ [b]) else e)
  | FsOp.closeF _ => s
  | FsOp.rename src dst =>
    match fileAt s src with
    | some c => setFile (s.filter (fun e => !(e.1 == src))) dst c
    | none => s

/-- Run a prefix of an operation trace; a failure at step `k` leaves the
state `runOps s (ops.take k)`. -/
def runOps (s : FsState) (ops : List FsOp) : FsState :=
  ops.foldl applyOp s

/-- The operation trace of `with out_path.open("wb") as f:
writer.write(f)` (src/tools/split_pages.py lines 74-75 and
src/tools/blank_page.py lines 145-146): the destination path itself is
opened for writing and the serialized bytes are streamed into it. -/
def writePdfOps (outPath : String) (content : List Nat) : List FsOp :=
  FsOp.openW outPath :: (content.map (fun b => FsOp.writeChunk outPath b) ++ [FsOp.closeF outPath])

/-- The write trace of the whole `split_every_n_pages` loop: each part
is written to its final destination path in turn. -/
def splitWriteOps (parts : List (String × List Nat)) : List FsOp :=
  (parts.map (fun pr => writePdfOps pr.1 pr.2)).flatten

/-- A pikepdf value as `convert.py` manipulates it: dictionaries (and
streams, whose dictionaries behave identically here), arrays, names,
numbers, `null`, and indirect references into the document's object
table. -/
inductive PVal where
  | null : PVal
  | pname : String → PVal
  | pnum : Int → PVal
  | pdict : List (String × PVal) → PVal
  | parr : List PVal → PVal
  | pref : Nat → PVal

/-- The pikepdf object table: indirect-object id to stored value.  The
association is by the first matching id, mirroring unique ids in a real
document. -/
def PTable : Type := List (Nat × PVal)

/-- `pdf.get_object(key)` on the table. -/
def tlookup (t : PTable) (i : Nat) : Option PVal :=
  (t.find? (fun e => e.1 == i)).map (fun e => e.2)

/-- In-place mutation of the object stored at id `i` (first matching
entry). -/
def tupdate (t : PTable) (i : Nat) (f : PVal → PVal) : PTable :=
  match t with
  | [] => []
  | e :: rest => if e.1 == i then (e.1, f e.2) :: rest else e :: tupdate rest i f

/-- First-match lookup in a pikepdf dictionary's entries. -/
def pGet (es : List (String × PVal)) (k : String) : Option (PVal) :=
  (es.find? (fun e => e.1 == k)).map (fun e => e.2)

/-- `del es[k]`: drop the key from a pikepdf dictionary's entries. -/
def pDelKey (es : List (String × PVal)) (k : String) : List (String × PVal) :=
  es.filter (fun e => !(e.1 == k))

/-- `k in es` for a pikepdf dictionary's entries. -/
def pHasKey (es : List (String × PVal)) (k : String) : Bool :=
  es.any (fun e => e.1 == k)

/-- In-place overwrite of the value stored under key `k` (first
matching entry), used to model mutation of a value reached through its
parent dictionary. -/
def pSetKey (es : List (String × PVal)) (k : String) (v : PVal) : List (String × PVal) :=
  match es with
  | [] => []
  | e :: rest => if e.1 == k then (e.1, v) :: rest else e :: pSetKey rest k v

mutual

/-- The direct (non-reference) effect of `_walk` in
`scrub_markinfo_anywhere` (src/convert.py lines 13-40) on one value:
delete `/MarkInfo` from every dictionary, then recurse into the
remaining values and into array items; references are left to the
table-level pass.  The deleted `/MarkInfo` value itself is not walked,
exactly as the source iterates `list(obj.keys())` after the
deletion. -/
def stripDeep : PVal → PVal
  | PVal.pdict es => PVal.pdict (stripEntries es)
  | PVal.parr xs => PVal.parr (stripList xs)
  | v => v

/-- `stripDeep` over a dictionary's entries. -/
def stripEntries : List (String × PVal) → List (String × PVal)
  | [] => []
  | e :: rest =>
    if e.1 == "/MarkInfo" then stripEntries rest
    else (e.1, stripDeep e.2) :: stripEntries rest

/-- `stripDeep` over an array's items. -/
def stripList : List PVal → List PVal
  | [] => []
  | v :: rest => stripDeep v :: stripList rest

end

mutual

/-- Indirect-object ids referenced anywhere inside a value. -/
def refsOf : PVal → List Nat
  | PVal.pref i => [i]
  | PVal.pdict es => refsOfEntries es
  | PVal.parr xs => refsOfList xs
  | _ => []

/-- `refsOf` over a dictionary's entries. -/
def refsOfEntries : List (String × PVal) → List Nat
  | [] => []
  | e :: rest => refsOf e.2 ++ refsOfEntries rest

/-- `refsOf` over an array's items. -/
def refsOfList : List PVal → List Nat
  | [] => []
  | v :: rest => refsOf v ++ refsOfList rest

end

/-- One closure round of the visited set built by `_walk`: every id in
`s` contributes the references surviving in its stripped stored value
(a reference stored under a `/MarkInfo` key is deleted before the walk
descends, so it is never visited). -/
def reachStep (t : PTable) (s : List Nat) : List Nat :=
  (s ++ (s.map (fun i =>
    match tlookup t i with
    | some v => refsOf (stripDeep v)
    | none => [])).flatten).dedup

/-- The set of indirect-object ids `_walk` visits starting from `root`:
iterating one closure round per table entry reaches every id whose
shortest reference chain passes through distinct table entries, which
covers all of them. -/
def reachSet (t : PTable) (root : PVal) : List Nat :=
  Nat.iterate (reachStep t) t.length (refsOf (stripDeep root))

/-- `scrub_markinfo_anywhere(pdf)` (src/convert.py lines 10-42) with
`_walk` started at `root`: every visited table object has `/MarkInfo`
scrubbed at every direct depth, and the start value itself is
scrubbed.  Cycle safety is the visited set: an id is processed once. -/
def scrub_markinfo_anywhere (t : PTable) (root : PVal) : PTable × PVal :=
  let r := reachSet t root
  (t.map (fun e => if r.contains e.1 then (e.1, stripDeep e.2) else e), stripDeep root)

/-- Step 1 and 2 of `strip_tags` (src/convert.py lines 49-70) on the
catalog object: delete `/StructTreeRoot`, `/RoleMap`, `/ClassMap` and
the whole `/MarkInfo`. -/
def rootPassF : PVal → PVal
  | PVal.pdict es =>
    PVal.pdict (pDelKey (pDelKey (pDelKey (pDelKey es "/StructTreeRoot") "/RoleMap") "/ClassMap") "/MarkInfo")
  | v => v

/-- The annotation scrub of `strip_tags` (src/convert.py lines 80-92)
for one element of an `/Annots` array: an indirect annotation's stored
object loses `/StructParent` when it is a dictionary; a direct
dictionary element is mutated in place; anything else is skipped. -/
def delStructParentF : PVal → PVal
  | PVal.pdict es => PVal.pdict (pDelKey es "/StructParent")
  | w => w

def setAnnotsF (xs : List PVal) : PVal → PVal
  | PVal.pdict es2 => PVal.pdict (pSetKey es2 "/Annots" (PVal.parr xs))
  | w => w

def stripAnnot (t : PTable) (a : PVal) : PTable × PVal :=
  match a with
  | PVal.pref i => (tupdate t i delStructParentF, PVal.pref i)
  | PVal.pdict es => (t, PVal.pdict (pDelKey es "/StructParent"))
  | v => (t, v)

/-- `stripAnnot` folded over an `/Annots` array, threading the table. -/
def stripAnnotsArr (t : PTable) : List PVal → PTable × List PVal
  | [] => (t, [])
  | a :: rest =>
    let ta := stripAnnot t a
    let tr := stripAnnotsArr ta.1 rest
    (tr.1, ta.2 :: tr.2)

/-- Step 3 of `strip_tags` (src/convert.py lines 74-92) for one page
id: delete `/StructParents` from the page dictionary and scrub its
annotations.  A direct `/Annots` array is rewritten inside the page; an
indirect one is rewritten at its own table entry (pikepdf resolves the
reference transparently when iterating). -/
def pageStrip (t : PTable) (pid : Nat) : PTable :=
  match tlookup t pid with
  | some (PVal.pdict es) =>
    let es1 := pDelKey es "/StructParents"
    match pGet es1 "/Annots" with
    | some (PVal.parr xs) =>
      let t1 := tupdate t pid (fun _ => PVal.pdict es1)
      let r := stripAnnotsArr t1 xs
      tupdate r.1 pid (setAnnotsF r.2)
    | some (PVal.pref j) =>
      let t1 := tupdate t pid (fun _ => PVal.pdict es1)
      match tlookup t1 j with
      | some (PVal.parr xs) =>
        let r := stripAnnotsArr t1 xs
        tupdate r.1 j (fun _ => PVal.parr r.2)
      | _ => t1
    | _ => tupdate t pid (fun _ => PVal.pdict es1)
  | _ => t

/-- A pikepdf document as `convert.strip_tags` sees it: the object
table, the id of the catalog (`pdf.Root` is indirect), and the page
object ids (`pdf.pages`). -/
structure PikePdf where
  table : PTable
  rootId : Nat
  pageIds : List Nat

/-- `strip_tags(pdf)` (src/convert.py lines 45-98): the targeted
catalog pass, the per-page/per-annotation pass, then the full-graph
`scrub_markinfo_anywhere` walk started at the catalog reference. -/
def strip_tags (p : PikePdf) : PikePdf :=
  let t1 := tupdate p.table p.rootId rootPassF
  let t2 := p.pageIds.foldl pageStrip t1
  let t3 := (scrub_markinfo_anywhere t2 (PVal.pref p.rootId)).1
  ⟨t3, p.rootId, p.pageIds⟩

/-- A reader whose every indirect lookup raises, used as a concrete
environment in witnesses. -/
def probeDoc : Doc := ⟨fun _ => GetRes.raised⟩

/-- A reader containing a 2-cycle (ids 0 and 1), a self-loop (id 2), a
raising id (3) and an id resolving to `None` (4). -/
def cycleDoc : Doc :=
  ⟨fun i =>
    match i with
    | 0 => GetRes.val (Val.ref 1)
    | 1 => GetRes.val (Val.ref 0)
    | 2 => GetRes.val (Val.ref 2)
    | 3 => GetRes.raised
    | _ => GetRes.pyNone⟩

theorem resolveSteps_le (d : Doc) : ∀ fuel obj, resolveSteps d fuel obj ≤ fuel
  | 0, _ => by simp [resolveSteps]
  | Nat.succ n, obj => by
    cases obj with
    | ref i =>
      cases htab : d.table i with
      | raised => simp [resolveSteps, htab]
      | pyNone => simp [resolveSteps, htab]
      | val nxt =>
        cases nxt with
        | ref j =>
          by_cases hj : j = i
          · simp [resolveSteps, htab, hj]
          · have hrec := resolveSteps_le d n (Val.ref j)
            simp only [resolveSteps, htab, hj, beq_iff_eq, if_false]
            omega
        | null =>
          have hrec := resolveSteps_le d n Val.null
          simp only [resolveSteps, htab]
          omega
        | name s =>
          have hrec := resolveSteps_le d n (Val.name s)
          simp only [resolveSteps, htab]
          omega
        | num m =>
          have hrec := resolveSteps_le d n (Val.num m)
          simp only [resolveSteps, htab]
          omega
        | dict es =>
          have hrec := resolveSteps_le d n (Val.dict es)
          simp only [resolveSteps, htab]
          omega
        | foreign m =>
          have hrec := resolveSteps_le d n (Val.foreign m)
          simp only [resolveSteps, htab]
          omega
    | null => simp [resolveSteps]
    | name s => simp [resolveSteps]
    | num m => simp [resolveSteps]
    | dict es => simp [resolveSteps]
    | foreign m => simp [resolveSteps]

/-- C5: for every input value — including a handle resolving to itself
or into a reference cycle — `_resolve` performs at most `max_hops`
(five) dereference steps, never raises (a caught `get_object` failure
makes it return the value in hand), and on a raising id, an empty
(`None`) result, a self-loop, or a longer cycle it returns the
last-known, possibly still unresolved, value. -/
theorem resolve_bounded_total (d : Doc) (obj : Val) (i1 i2 i3 i4 j : Nat)
    (h1 : d.table i1 = GetRes.raised)
    (h2 : d.table i2 = GetRes.pyNone)
    (h3 : d.table i3 = GetRes.val (Val.ref i3))
    (h4 : d.table i4 = GetRes.val (Val.ref j))
    (hne : j ≠ i4)
    (h5 : d.table j = GetRes.val (Val.ref i4)) :
    resolveSteps d 5 obj ≤ 5 ∧
    (∀ v, resolveCore d 5 obj = Except.error v → _resolve d 5 obj = v) ∧
    _resolve d 5 (Val.ref i1) = Val.ref i1 ∧
    _resolve d 5 (Val.ref i2) = Val.ref i2 ∧
    _resolve d 5 (Val.ref i3) = Val.ref i3 ∧
    _resolve d 5 (Val.ref i4) = Val.ref j := by
  have hne2 : i4 ≠ j := Ne.symm hne
  refine ⟨resolveSteps_le d 5 obj, ?_, ?_, ?_, ?_, ?_⟩
  · intro v hv
    unfold _resolve
    rw [hv]
  · unfold _resolve
    simp [resolveCore, h1]
  · unfold _resolve
    simp [resolveCore, h2]
  · unfold _resolve
    simp [resolveCore, h3]
  · unfold _resolve
    simp [resolveCore, h4, h5, hne, hne2]

/-- Closed instance of the C5 theorem on `cycleDoc`, with the raising
id 3, the `None` id 4, the self-loop id 2 and the 2-cycle 0 ↔ 1. -/
theorem resolve_bounded_total_witness :
    resolveSteps cycleDoc 5 (Val.ref 0) ≤ 5 ∧
    (∀ v, resolveCore cycleDoc 5 (Val.ref 0) = Except.error v →
      _resolve cycleDoc 5 (Val.ref 0) = v) ∧
    _resolve cycleDoc 5 (Val.ref 3) = Val.ref 3 ∧
    _resolve cycleDoc 5 (Val.ref 4) = Val.ref 4 ∧
    _resolve cycleDoc 5 (Val.ref 2) = Val.ref 2 ∧
    _resolve cycleDoc 5 (Val.ref 0) = Val.ref 1 :=
  resolve_bounded_total cycleDoc (Val.ref 0) 3 4 2 0 1 rfl rfl rfl rfl
    (by decide) rfl

theorem resolve_dict (d : Doc) (n : Nat) (es : List (String × Val)) :
    _resolve d (n + 1) (Val.dict es) = Val.dict es := rfl

/-- C8: the Inheritance Resolver returns the resolved attribute found
directly on the page; otherwise it resolves `/Parent` and continues on
the ancestor; a chain end (no `/Parent` and the key absent) yields
`none`; the walk stops with `none` once the 10-hop budget is exhausted;
a `None` current node yields `none` — and the function is total, so no
error is ever raised. -/
theorem get_inherited_spec (d : Doc) (es : List (String × Val)) (nm : String)
    (v pv : Val) (fuel : Nat) (cur : Option Val)
    (hdir : pyGet es nm = some v)
    (es2 : List (String × Val))
    (habs : pyGet es2 nm = none) (hpar : pyGet es2 "/Parent" = some pv)
    (es3 : List (String × Val))
    (habs3 : pyGet es3 nm = none) (hnopar : pyGet es3 "/Parent" = none) :
    _get_inherited d (Val.dict es) nm = some (_resolve d 5 v) ∧
    getInheritedAux d nm (fuel + 1) (some (Val.dict es2)) =
      getInheritedAux d nm fuel (some (_resolve d 5 pv)) ∧
    getInheritedAux d nm (fuel + 1) (some (Val.dict es3)) = none ∧
    getInheritedAux d nm 0 cur = none ∧
    getInheritedAux d nm fuel none = none := by
  refine ⟨?_, ?_, ?_, ?_, ?_⟩
  · unfold _get_inherited
    rw [resolve_dict]
    simp [getInheritedAux, hdir]
  · simp [getInheritedAux, habs, hpar]
  · simp [getInheritedAux, habs3, hnopar]
  · cases cur <;> simp [getInheritedAux]
  · cases fuel <;> simp [getInheritedAux]

/-- Closed instance of the C8 theorem: a page holding `/Resources`
directly, a page inheriting through `/Parent`, a chain end, the
exhausted hop budget and the `None` node. -/
theorem get_inherited_spec_witness :
    _get_inherited probeDoc (Val.dict [("/Resources", Val.num 7)]) "/Resources" =
      some (_resolve probeDoc 5 (Val.num 7)) ∧
    getInheritedAux probeDoc "/Resources" (3 + 1)
        (some (Val.dict [("/Parent", Val.dict [("/Resources", Val.name "/R")])])) =
      getInheritedAux probeDoc "/Resources" 3
        (some (_resolve probeDoc 5 (Val.dict [("/Resources", Val.name "/R")]))) ∧
    getInheritedAux probeDoc "/Resources" (3 + 1) (some (Val.dict [])) = none ∧
    getInheritedAux probeDoc "/Resources" 0 (some Val.null) = none ∧
    getInheritedAux probeDoc "/Resources" 3 none = none :=
  get_inherited_spec probeDoc [("/Resources", Val.num 7)] "/Resources"
    (Val.num 7) (Val.dict [("/Resources", Val.name "/R")]) 3 (some Val.null)
    rfl [("/Parent", Val.dict [("/Resources", Val.name "/R")])] rfl rfl
    [] rfl rfl

/-- C10: the `text_len_threshold` parameter has no effect on the
verdict of `is_blank_page` — the only branch reading it is the source's
`pass` no-op — so any two values of it give the same result, all other
parameters equal. -/
theorem text_len_threshold_no_effect (d : Doc) (p : Page) (t1 t2 : Int)
    (m1 : Nat) (m2 : Rat) (m3 : Nat) (b : Bool) :
    is_blank_page d p ⟨t1, m1, m2, m3, b⟩ = is_blank_page d p ⟨t2, m1, m2, m3, b⟩ := rfl

/-- C1: the blankness classifier applies, in order and first match
winning, the alphanumeric-count/ratio rule, then the strict
stream-bytes rule, then the image rule (guarded by
`treat_any_image_as_nonblank`), and otherwise reports Blank; failure to
extract text behaves exactly as empty text.  Stated as agreement of the
source's `is_blank_page` with the spec's rule list `classifierSpec`. -/
theorem is_blank_page_decision_order (d : Doc) (p : Page) (ps : BlankParams) :
    (is_blank_page d p ps = true ↔ classifierSpec d p ps = Verdict.Blank "below_thresholds") ∧
    (is_blank_page d p ps = false ↔ ∃ r, classifierSpec d p ps = Verdict.NonBlank r) ∧
    (∀ q : Page, q.extractText = Except.error () →
      is_blank_page d q ps = is_blank_page d ⟨Except.ok (some ""), q.contents, q.node⟩ ps) := by
  refine ⟨?_, ?_, ?_⟩
  · simp only [is_blank_page, classifierSpec]
    split_ifs <;> simp
  · simp only [is_blank_page, classifierSpec]
    split_ifs <;> simp
  · intro q hq
    simp only [is_blank_page, pageText, hq]

theorem splitChunks_nil {α : Type} (n : Nat) : splitChunks n ([] : List α) = [] := by
  simp [splitChunks]

theorem splitChunks_cons {α : Type} (m : Nat) (x : α) (xs : List α) :
    splitChunks (m + 1) (x :: xs) = (x :: xs.take m) :: splitChunks (m + 1) (xs.drop m) := by
  simp [splitChunks]

theorem splitChunks_flatten {α : Type} (m : Nat) : ∀ l : List α, (splitChunks (m + 1) l).flatten = l
  | [] => by simp [splitChunks]
  | x :: xs => by
    rw [splitChunks_cons]
    have ih := splitChunks_flatten m (xs.drop m)
    simp [ih, List.take_append_drop]
termination_by l => l.length
decreasing_by
  simp only [List.length_drop, List.length_cons]
  omega

theorem splitChunks_length {α : Type} (m : Nat) :
    ∀ l : List α, (splitChunks (m + 1) l).length = (l.length + m) / (m + 1)
  | [] => by
    simp [splitChunks, Nat.div_eq_of_lt (Nat.lt_succ_self m)]
  | x :: xs => by
    rw [splitChunks_cons]
    have ih := splitChunks_length m (xs.drop m)
    by_cases h : m ≤ xs.length
    · simp only [List.length_cons, ih, List.length_drop]
      rw [Nat.sub_add_cancel h]
      have heq : xs.length + 1 + m = xs.length + (m + 1) := by omega
      rw [heq, Nat.add_div_right _ (Nat.succ_pos m)]
    · have hd : xs.drop m = [] := List.drop_eq_nil_of_le (by omega)
      rw [hd, splitChunks_nil]
      have : (x :: xs).length + m = xs.length + 1 + m := by simp
      rw [this]
      have h1 : 1 * (m + 1) ≤ xs.length + 1 + m := by omega
      have h2 : xs.length + 1 + m < 2 * (m + 1) := by omega
      simp [Nat.div_eq_of_lt_le h1 h2]
termination_by l => l.length
decreasing_by
  simp only [List.length_drop, List.length_cons]
  omega

theorem splitChunks_mem_length {α : Type} (m : Nat) :
    ∀ (l part : List α), part ∈ splitChunks (m + 1) l → part.length ≤ m + 1
  | [], part => by simp [splitChunks]
  | x :: xs, part => by
    rw [splitChunks_cons]
    intro hmem
    rcases List.mem_cons.mp hmem with h | h
    · subst h
      have := List.length_take m xs
      simp only [List.length_cons, this]
      omega
    · exact splitChunks_mem_length m (xs.drop m) part h
termination_by l _ => l.length
decreasing_by
  simp only [List.length_drop, List.length_cons]
  omega

/-- C3: for a source of `P ≥ 1` pages and group size `n > 0` the
splitter succeeds and produces exactly `ceil(P / n) = (P + n - 1) / n`
parts, each of at most `n` consecutive pages, the page counts sum to
`P`, and concatenating the parts in order reproduces the original page
sequence (hence no page is omitted or duplicated). -/
theorem split_roundtrip {α : Type} (pages : List α) (n : Nat)
    (hn : 0 < n) (_hp : pages ≠ []) :
    ∃ parts, split_every_n_pages pages n = Except.ok parts ∧
      parts.length = (pages.length + n - 1) / n ∧
      (∀ part ∈ parts, part.length ≤ n) ∧
      (parts.map List.length).sum = pages.length ∧
      parts.flatten = pages := by
  obtain ⟨m, rfl⟩ : ∃ m, n = m + 1 := ⟨n - 1, by omega⟩
  refine ⟨splitChunks (m + 1) pages, ?_, ?_, ?_, ?_, splitChunks_flatten m pages⟩
  · simp [split_every_n_pages]
  · rw [splitChunks_length]
    congr 1
  · exact fun part hpm => splitChunks_mem_length m pages part hpm
  · calc ((splitChunks (m + 1) pages).map List.length).sum
        = (splitChunks (m + 1) pages).flatten.length := (List.length_flatten _).symm
      _ = pages.length := by rw [splitChunks_flatten]

/-- Closed instance of the C3 theorem: five pages split in groups of
two. -/
theorem split_roundtrip_witness :
    ∃ parts, split_every_n_pages [1, 2, 3, 4, 5] 2 = Except.ok parts ∧
      parts.length = (([1, 2, 3, 4, 5] : List Nat).length + 2 - 1) / 2 ∧
      (∀ part ∈ parts, part.length ≤ 2) ∧
      (parts.map List.length).sum = ([1, 2, 3, 4, 5] : List Nat).length ∧
      parts.flatten = [1, 2, 3, 4, 5] :=
  split_roundtrip [1, 2, 3, 4, 5] 2 (by omega) (by simp)

theorem page_has_images_zero (d : Doc) (r : Option Val) :
    page_has_images d 0 r = true := by
  simp [page_has_images]

theorem page_has_images_none (d : Doc) (fuel : Nat) :
    page_has_images d (fuel + 1) none = false := by
  simp [page_has_images]

theorem page_has_images_some (d : Doc) (fuel : Nat) (rv : Val) :
    page_has_images d (fuel + 1) (some rv) =
      (if pyTruthy rv then
        match _resolve d 5 rv with
        | Val.dict es =>
          (match (pyGet es "/XObject").map (fun v => _resolve d 5 v) with
           | some (Val.dict xs) => scanXObjects d fuel xs
           | _ => false)
        | _ => false
      else false) := by
  simp [page_has_images]

theorem scanXObjects_nil (d : Doc) (fuel : Nat) : scanXObjects d fuel [] = false := by
  simp [scanXObjects]

theorem scanXObjects_cons (d : Doc) (fuel : Nat) (e : String × Val)
    (rest : List (String × Val)) :
    scanXObjects d fuel (e :: rest) =
      (match _resolve d 5 e.2 with
       | Val.dict es =>
         (match pyGet es "/Subtype" with
          | some (Val.name s) =>
            if s == "/Image" then true
            else if s == "/Form" then
              (if page_has_images d fuel ((pyGet es "/Resources").map (fun v => _resolve d 5 v)) then
                true
              else scanXObjects d fuel rest)
            else scanXObjects d fuel rest
          | _ => scanXObjects d fuel rest)
       | _ => scanXObjects d fuel rest) := by
  simp [scanXObjects]

theorem resolve5_dict (d : Doc) (es : List (String × Val)) :
    _resolve d 5 (Val.dict es) = Val.dict es := rfl

theorem isEmpty_false_of_pyGet {es : List (String × Val)} {k : String} {v : Val}
    (h : pyGet es k = some v) : es.isEmpty = false := by
  cases es with
  | nil => simp [pyGet] at h
  | cons a l => rfl

/-- An `/XObject` entry value that makes the scan loop answer `true` at
the given recursion budget: it resolves to a dictionary that is either
an `Image` or a `Form` whose resources the detector accepts. -/
def entryHits (d : Doc) (fuel : Nat) (x0 : Val) : Prop :=
  ∃ xes, _resolve d 5 x0 = Val.dict xes ∧
    (pyGet xes "/Subtype" = some (Val.name "/Image") ∨
     (pyGet xes "/Subtype" = some (Val.name "/Form") ∧
      page_has_images d fuel ((pyGet xes "/Resources").map (fun v => _resolve d 5 v)) = true))

theorem scanXObjects_tail (d : Doc) (fuel : Nat) (e : String × Val)
    (rest : List (String × Val)) (h : scanXObjects d fuel rest = true) :
    scanXObjects d fuel (e :: rest) = true := by
  rw [scanXObjects_cons]
  split
  · split
    · split_ifs <;> simp [h]
    · exact h
  · exact h

theorem scanXObjects_of_mem (d : Doc) (fuel : Nat) :
    ∀ (xs : List (String × Val)) (k : String) (x0 : Val),
      (k, x0) ∈ xs → entryHits d fuel x0 → scanXObjects d fuel xs = true := by
  intro xs
  induction xs with
  | nil => intro k x0 h _; simp at h
  | cons e rest ih =>
    intro k x0 hmem hhit
    rcases List.mem_cons.mp hmem with he | hr
    · obtain ⟨xes, hres, hsub⟩ := hhit
      have he2 : e.2 = x0 := by rw [← he]
      rw [scanXObjects_cons, he2, hres]
      rcases hsub with himg | ⟨hform, hrec⟩
      · simp [himg]
      · simp [hform, hrec]
    · exact scanXObjects_tail d fuel e rest (ih k x0 hr hhit)

/-- A resource table (its dictionary entries) containing, at the given
`Form`-nesting depth, an `Image`-subtype entry reachable through its
`/XObject` map and nested `Form` resources, each step resolved the way
the detector resolves it. -/
inductive ImageReachable (d : Doc) : Nat → List (String × Val) → Prop where
  | img : ∀ (es : List (String × Val)) (xo : Val) (xs : List (String × Val))
      (k : String) (x0 : Val) (xes : List (String × Val)),
      pyGet es "/XObject" = some xo →
      _resolve d 5 xo = Val.dict xs →
      (k, x0) ∈ xs →
      _resolve d 5 x0 = Val.dict xes →
      pyGet xes "/Subtype" = some (Val.name "/Image") →
      ImageReachable d 0 es
  | form : ∀ (depth : Nat) (es : List (String × Val)) (xo : Val)
      (xs : List (String × Val)) (k : String) (x0 : Val)
      (xes nes : List (String × Val)) (res : Val),
      pyGet es "/XObject" = some xo →
      _resolve d 5 xo = Val.dict xs →
      (k, x0) ∈ xs →
      _resolve d 5 x0 = Val.dict xes →
      pyGet xes "/Subtype" = some (Val.name "/Form") →
      pyGet xes "/Resources" = some res →
      _resolve d 5 res = Val.dict nes →
      ImageReachable d depth nes →
      ImageReachable d (depth + 1) es

theorem page_has_images_of_reachable (d : Doc) (k : Nat)
    (es : List (String × Val)) (h : ImageReachable d k es) :
    ∀ fuel, page_has_images d fuel (some (Val.dict es)) = true := by
  induction h with
  | img es xo xs k0 x0 xes hxo hxos hmem hx0 hsub =>
    intro fuel
    cases fuel with
    | zero => exact page_has_images_zero d _
    | succ f =>
      rw [page_has_images_some, resolve5_dict]
      have hne := isEmpty_false_of_pyGet hxo
      simp only [pyTruthy, hne, Bool.not_false, if_true, hxo, Option.map_some', hxos]
      exact scanXObjects_of_mem d f xs k0 x0 hmem ⟨xes, hx0, Or.inl hsub⟩
  | form depth es xo xs k0 x0 xes nes res hxo hxos hmem hx0 hsub hres hresd _hrec ih =>
    intro fuel
    cases fuel with
    | zero => exact page_has_images_zero d _
    | succ f =>
      rw [page_has_images_some, resolve5_dict]
      have hne := isEmpty_false_of_pyGet hxo
      simp only [pyTruthy, hne, Bool.not_false, if_true, hxo, Option.map_some', hxos]
      refine scanXObjects_of_mem d f xs k0 x0 hmem ⟨xes, hx0, Or.inr ⟨hsub, ?_⟩⟩
      rw [hres]
      simp only [Option.map_some', hresd]
      exact ih f

/-- C6: a resource table with a `Form` entry whose nested resources
contain an `Image` entry (at any nesting depth) makes the Image
Presence Detector return true, whatever recursion budget remains; an
absent resource table (`None`) and a table with no embedded-object
(`/XObject`) map return false. -/
theorem page_has_images_transitive (d : Doc) (k fuel : Nat)
    (es es2 : List (String × Val))
    (h : ImageReachable d k es) (h2 : pyGet es2 "/XObject" = none) :
    page_has_images d fuel (some (Val.dict es)) = true ∧
    page_has_images d (fuel + 1) none = false ∧
    page_has_images d (fuel + 1) (some (Val.dict es2)) = false := by
  refine ⟨page_has_images_of_reachable d k es h fuel, page_has_images_none d fuel, ?_⟩
  rw [page_has_images_some, resolve5_dict]
  cases es2 with
  | nil => simp [pyTruthy]
  | cons a l =>
    simp [pyTruthy, h2]

/-- An `Image`-subtype XObject. -/
def imgXObj : Val := Val.dict [("/Subtype", Val.name "/Image")]

/-- Resources holding one image XObject. -/
def innerRes : List (String × Val) := [("/XObject", Val.dict [("Im0", imgXObj)])]

/-- A `Form`-subtype XObject whose nested resources hold the image. -/
def formXObj : Val :=
  Val.dict [("/Subtype", Val.name "/Form"), ("/Resources", Val.dict innerRes)]

/-- Resources holding only the form XObject. -/
def outerRes : List (String × Val) := [("/XObject", Val.dict [("Fm0", formXObj)])]

theorem imageReachable_outerRes : ImageReachable probeDoc 1 outerRes :=
  ImageReachable.form 0 outerRes (Val.dict [("Fm0", formXObj)]) [("Fm0", formXObj)]
    "Fm0" formXObj
    [("/Subtype", Val.name "/Form"), ("/Resources", Val.dict innerRes)] innerRes
    (Val.dict innerRes)
    rfl rfl (List.mem_singleton.mpr rfl) rfl rfl rfl rfl
    (ImageReachable.img innerRes (Val.dict [("Im0", imgXObj)]) [("Im0", imgXObj)]
      "Im0" imgXObj [("/Subtype", Val.name "/Image")]
      rfl rfl (List.mem_singleton.mpr rfl) rfl rfl)

/-- Closed instance of the C6 theorem: a form-nested image is detected
at budget 7, while an absent table and a table whose resources hold
only a font are rejected. -/
theorem page_has_images_transitive_witness :
    page_has_images probeDoc 7 (some (Val.dict outerRes)) = true ∧
    page_has_images probeDoc (7 + 1) none = false ∧
    page_has_images probeDoc (7 + 1) (some (Val.dict [("/Font", Val.null)])) = false :=
  page_has_images_transitive probeDoc 1 7 outerRes [("/Font", Val.null)]
    imageReachable_outerRes rfl

/-- C4 (amended): failures while inspecting the resource table as a
whole are conservative — in particular exhausting the recursion budget
reports an image — and no exception ever escapes (every function here
is total); but an exception raised while reading the `/Subtype` of a
non-mapping entry is handled by `continue`: that entry is skipped and
the scan moves on to the remaining entries instead of reporting an
image. -/
theorem image_detector_error_policy (d : Doc) (fuel : Nat) (k : String) (i : Nat)
    (rest : List (String × Val)) (r : Option Val) :
    pyGetAttr (Val.foreign i) "/Subtype" = Except.error () ∧
    scanXObjects d fuel ((k, Val.foreign i) :: rest) = scanXObjects d fuel rest ∧
    page_has_images d 0 r = true := by
  refine ⟨rfl, ?_, page_has_images_zero d r⟩
  rw [scanXObjects_cons]
  rfl

/-- C4 counterexample: inspecting the only entry of this table's
`/XObject` map fails (its `/Subtype` read raises), yet the detector
returns false — the failing entry was silently skipped instead of
producing the claimed conservative true. -/
theorem failing_entry_skipped_cex :
    pyGetAttr (Val.foreign 0) "/Subtype" = Except.error () ∧
    page_has_images probeDoc (Nat.succ 2)
      (some (Val.dict [("/XObject", Val.dict [("X0", Val.foreign 0)])])) = false := by
  refine ⟨rfl, ?_⟩
  rw [show Nat.succ 2 = 2 + 1 from rfl, page_has_images_some, resolve5_dict]
  simp only [pyTruthy, List.isEmpty_cons, Bool.not_false, if_true]
  rw [show pyGet [("/XObject", Val.dict [("X0", Val.foreign 0)])] "/XObject" =
      some (Val.dict [("X0", Val.foreign 0)]) from rfl]
  simp only [Option.map_some', resolve5_dict]
  rw [scanXObjects_cons]
  rw [show _resolve probeDoc 5 (("X0", Val.foreign 0)).2 = Val.foreign 0 from rfl]
  exact scanXObjects_nil probeDoc 2

theorem hasKey_delKey_self (es : List (String × Val)) (k : String) :
    hasKey (delKey es k) k = false := by
  induction es with
  | nil => rfl
  | cons e rest ih =>
    by_cases h : (e.1 == k) = true
    · simp [delKey, List.filter_cons, h, hasKey, ih]
    · simp only [Bool.not_eq_true] at h
      simp only [delKey, List.filter_cons, h, Bool.not_false, if_true, hasKey,
        List.any_cons, h, Bool.false_or]
      exact ih

theorem hasKey_delKey_other (es : List (String × Val)) (k k2 : String)
    (hne : k2 ≠ k) : hasKey (delKey es k) k2 = hasKey es k2 := by
  induction es with
  | nil => rfl
  | cons e rest ih =>
    by_cases h : (e.1 == k) = true
    · have he : e.1 = k := by simpa using h
      have h2 : (e.1 == k2) = false := by
        simp [he]
        exact fun hc => hne hc.symm
      simp [delKey, List.filter_cons, h, hasKey, h2] at ih ⊢
      exact ih
    · simp only [Bool.not_eq_true] at h
      simp [delKey, List.filter_cons, h, hasKey] at ih ⊢
      rw [ih]

theorem tagFree_strip_fresh (pages : List Page) :
    tagFree (_strip_tags_from_writer ⟨freshCatalog, pages⟩) = true := by
  have hcat : (_strip_tags_from_writer ⟨freshCatalog, pages⟩).catalog = freshCatalog := rfl
  have hpgs : (_strip_tags_from_writer ⟨freshCatalog, pages⟩).pages =
      pages.map (fun p =>
        ⟨p.extractText, p.contents, delKey (delKey p.node "/Tabs") "/StructParents"⟩) := rfl
  simp only [tagFree, hcat, hpgs, Bool.and_eq_true]
  refine ⟨⟨⟨⟨rfl, rfl⟩, rfl⟩, rfl⟩, ?_⟩
  simp only [List.all_eq_true]
  intro p hp
  rcases List.mem_map.mp hp with ⟨q, _hq, rfl⟩
  simp only [Bool.and_eq_true, Bool.not_eq_true']
  constructor
  · exact hasKey_delKey_self (delKey q.node "/Tabs") "/StructParents"
  · rw [hasKey_delKey_other (delKey q.node "/Tabs") "/StructParents" "/Tabs" (by decide)]
    exact hasKey_delKey_self q.node "/Tabs"

/-- C2 (amended): every part emitted by the splitter satisfies the
tagging-removal invariant (no StructTreeRoot / MarkInfo / RoleMap /
ClassMap in the catalog, no StructParents / Tabs on any page), and so
does every document emitted by blank-page removal except through the
all-blank fallback, which copies the source document verbatim —
tagging metadata included. -/
theorem emitted_docs_tagfree_except_fallback
    (srcPages : List Page) (n : Nat) (parts : List PdfWriter) (w : PdfWriter)
    (hsplit : splitDocs srcPages n = Except.ok parts) (hw : w ∈ parts)
    (d : Doc) (cat : List (String × Val)) (pgs : List Page)
    (ps : BlankParams) (fb : Bool) :
    tagFree w = true ∧
    (remove_blank_pages_doc d cat pgs ps fb = ⟨cat, pgs⟩ ∨
      tagFree (remove_blank_pages_doc d cat pgs ps fb) = true) := by
  constructor
  · unfold splitDocs split_every_n_pages at hsplit
    by_cases hn : n = 0
    · simp [hn] at hsplit
    · simp only [hn, if_false] at hsplit
      have hparts : parts = (splitChunks n srcPages).map
          (fun ps2 => _strip_tags_from_writer ⟨freshCatalog, ps2⟩) := by
        cases hsplit
        rfl
      rw [hparts] at hw
      rcases List.mem_map.mp hw with ⟨ps2, _hmem, rfl⟩
      exact tagFree_strip_fresh ps2
  · unfold remove_blank_pages_doc
    by_cases hk : (pgs.filter fun p => !is_blank_page d p ps).isEmpty
    · cases fb with
      | true => exact Or.inl (by simp [hk])
      | false => exact Or.inr (by simp [hk]; rfl)
    · refine Or.inr ?_
      simp only [hk, if_false, Bool.false_eq_true]
      exact tagFree_strip_fresh _

/-- A page that classifies blank: no extractable text, no contents, an
empty page dictionary. -/
def blankPageC : Page := ⟨Except.ok none, ContentsResult.pyNone, []⟩

theorem blankPageC_blank : is_blank_page probeDoc blankPageC defaultParams = true := by
  have himg : page_has_images probeDoc pyRecursionLimit
      (_get_inherited probeDoc (Val.dict blankPageC.node) "/Resources") = false := by
    rw [show _get_inherited probeDoc (Val.dict blankPageC.node) "/Resources" = none from rfl,
      show pyRecursionLimit = 999 + 1 from rfl]
    exact page_has_images_none probeDoc 999
  simp only [is_blank_page, himg]
  decide

/-- C2 counterexample: a source document whose catalog references a
structure tree and whose only page classifies blank; the all-blank
fallback emits the source verbatim, so the emitted document still
carries `/StructTreeRoot`, violating the claimed invariant. -/
theorem remove_blank_fallback_keeps_tags_cex :
    tagFree (remove_blank_pages_doc probeDoc [("/StructTreeRoot", Val.ref 7)]
      [blankPageC] defaultParams true) = false := by
  have hfilter : ([blankPageC].filter fun p => !is_blank_page probeDoc p defaultParams) = [] := by
    simp [List.filter_cons, blankPageC_blank]
  simp only [remove_blank_pages_doc, hfilter]
  rfl

theorem runChunks (p : String) (cs : List Nat) :
    ∀ acc, runOps [(p, acc)] (cs.map (fun b => FsOp.writeChunk p b)) = [(p, acc ++ cs)] := by
  induction cs with
  | nil => intro acc; simp [runOps]
  | cons c rest ih =>
    intro acc
    have hstep : applyOp [(p, acc)] (FsOp.writeChunk p c) = [(p, acc ++ [c])] := by
      simp [applyOp]
    simp only [List.map_cons, runOps, List.foldl_cons] at ih ⊢
    rw [hstep]
    rw [ih (acc ++ [c])]
    simp

theorem writePdfOps_take (p : String) (c : List Nat) (j : Nat) (hj : j ≤ c.length) :
    runOps [] ((writePdfOps p c).take (j + 1)) = [(p, c.take j)] := by
  unfold writePdfOps
  rw [List.take_succ_cons,
    List.take_append_of_le_length (by simpa using hj),
    ← List.map_take]
  have hopen : applyOp [] (FsOp.openW p) = [(p, [])] := by
    simp [applyOp, setFile, fileAt]
  simp only [runOps, List.foldl_cons, hopen]
  have := runChunks p (c.take j) []
  simp only [runOps] at this
  simpa using this

theorem writePdfOps_no_rename (p : String) (c : List Nat) (a b : String) :
    FsOp.rename a b ∉ writePdfOps p c := by
  simp [writePdfOps]

/-- C9 (amended): the output writer opens the final destination path
itself and streams the serialized bytes into it; no temporary path and
no rename appears anywhere in the write trace (of a single document or
of the whole split loop), and an interruption after `j` chunks leaves
exactly the first `j` bytes — a partial file — at the destination. -/
theorem write_trace_direct (p : String) (c : List Nat) (j : Nat) (hj : j ≤ c.length)
    (a b : String) (parts : List (String × List Nat)) :
    FsOp.rename a b ∉ writePdfOps p c ∧
    FsOp.rename a b ∉ splitWriteOps parts ∧
    FsOp.openW p ∈ writePdfOps p c ∧
    fileAt (runOps [] ((writePdfOps p c).take (j + 1))) p = some (c.take j) := by
  refine ⟨writePdfOps_no_rename p c a b, ?_, ?_, ?_⟩
  · intro hmem
    rcases List.mem_flatten.mp hmem with ⟨l, hl, hmem2⟩
    rcases List.mem_map.mp hl with ⟨pr, _hpr, rfl⟩
    exact writePdfOps_no_rename pr.1 pr.2 a b hmem2
  · simp [writePdfOps]
  · rw [writePdfOps_take p c j hj]
    simp [fileAt]

/-- Closed instance of the C9 amended theorem at a three-byte document
interrupted after two chunks. -/
theorem write_trace_direct_witness :
    FsOp.rename "tmp" "out.pdf" ∉ writePdfOps "out.pdf" [7, 8, 9] ∧
    FsOp.rename "tmp" "out.pdf" ∉ splitWriteOps [("out.pdf", [7, 8, 9])] ∧
    FsOp.openW "out.pdf" ∈ writePdfOps "out.pdf" [7, 8, 9] ∧
    fileAt (runOps [] ((writePdfOps "out.pdf" [7, 8, 9]).take (2 + 1))) "out.pdf" =
      some (([7, 8, 9] : List Nat).take 2) :=
  write_trace_direct "out.pdf" [7, 8, 9] 2 (by decide) "tmp" "out.pdf"
    [("out.pdf", [7, 8, 9])]

/-- C9 counterexample: interrupting the direct write of `[7, 8]` to
its destination after the second operation leaves the half-written
file `[7]` at the destination path — neither absent nor the complete
content, refuting write atomicity. -/
theorem direct_write_partial_cex :
    fileAt (runOps [] ((writePdfOps "out.pdf" [7, 8]).take 2)) "out.pdf" = some [7] ∧
    some [7] ≠ (none : Option (List Nat)) ∧ ([7] : List Nat) ≠ [7, 8] := by
  refine ⟨rfl, by simp, by simp⟩

theorem splitDocs_singleton :
    splitDocs [blankPageC] 1 =
      Except.ok [_strip_tags_from_writer ⟨freshCatalog, [blankPageC]⟩] := by
  unfold splitDocs split_every_n_pages
  have h1 : splitChunks 1 [blankPageC] = [[blankPageC]] := by
    rw [show (1 : Nat) = 0 + 1 from rfl, splitChunks_cons]
    simp [splitChunks_nil]
  simp [h1]

/-- Closed instance of the C2 amended theorem: the one split part of a
one-page document is tag-free, and blank-page removal of an empty
document without fallback emits a tag-free document. -/
theorem emitted_docs_tagfree_except_fallback_witness :
    tagFree (_strip_tags_from_writer ⟨freshCatalog, [blankPageC]⟩) = true ∧
    (remove_blank_pages_doc probeDoc [] [] defaultParams false = ⟨[], []⟩ ∨
      tagFree (remove_blank_pages_doc probeDoc [] [] defaultParams false) = true) :=
  emitted_docs_tagfree_except_fallback [blankPageC] 1
    [_strip_tags_from_writer ⟨freshCatalog, [blankPageC]⟩]
    (_strip_tags_from_writer ⟨freshCatalog, [blankPageC]⟩)
    splitDocs_singleton (List.mem_singleton.mpr rfl)
    probeDoc [] [] defaultParams false

theorem delKey_eq_self (es : List (String × Val)) (k : String)
    (h : hasKey es k = false) : delKey es k = es := by
  induction es with
  | nil => rfl
  | cons e rest ih =>
    simp only [hasKey, List.any_cons, Bool.or_eq_false_iff] at h
    simp only [delKey, List.filter_cons, h.1, Bool.not_false, if_true]
    have := ih (by simp [hasKey, h.2])
    simp only [delKey] at this
    rw [this]

theorem PdfWriter_ext {a b : PdfWriter} (h1 : a.catalog = b.catalog)
    (h2 : a.pages = b.pages) : a = b := by
  cases a
  cases b
  cases h1
  cases h2
  rfl

theorem strip_writer_hasKeys (es : List (String × Val)) :
    hasKey (delKey (delKey (delKey es "/StructTreeRoot") "/MarkInfo") "/RoleMap")
      "/StructTreeRoot" = false ∧
    hasKey (delKey (delKey (delKey es "/StructTreeRoot") "/MarkInfo") "/RoleMap")
      "/MarkInfo" = false ∧
    hasKey (delKey (delKey (delKey es "/StructTreeRoot") "/MarkInfo") "/RoleMap")
      "/RoleMap" = false := by
  refine ⟨?_, ?_, hasKey_delKey_self _ _⟩
  · rw [hasKey_delKey_other _ _ _ (by decide), hasKey_delKey_other _ _ _ (by decide)]
    exact hasKey_delKey_self _ _
  · rw [hasKey_delKey_other _ _ _ (by decide)]
    exact hasKey_delKey_self _ _

theorem strip_writer_catalog (w : PdfWriter) :
    (_strip_tags_from_writer w).catalog =
      delKey (delKey (delKey w.catalog "/StructTreeRoot") "/MarkInfo") "/RoleMap" := by
  show (if hasKey (delKey (delKey (delKey w.catalog "/StructTreeRoot") "/MarkInfo") "/RoleMap")
      "/MarkInfo" = true then _ else _) = _
  rw [(strip_writer_hasKeys w.catalog).2.1]
  simp

theorem strip_writer_pages (w : PdfWriter) :
    (_strip_tags_from_writer w).pages = w.pages.map (fun p =>
      ⟨p.extractText, p.contents, delKey (delKey p.node "/Tabs") "/StructParents"⟩) := rfl

theorem strip_writer_idem (w : PdfWriter) :
    _strip_tags_from_writer (_strip_tags_from_writer w) = _strip_tags_from_writer w := by
  refine PdfWriter_ext ?_ ?_
  · rw [strip_writer_catalog, strip_writer_catalog]
    rw [delKey_eq_self _ _ (strip_writer_hasKeys w.catalog).1,
      delKey_eq_self _ _ (strip_writer_hasKeys w.catalog).2.1,
      delKey_eq_self _ _ (strip_writer_hasKeys w.catalog).2.2]
  · rw [strip_writer_pages, strip_writer_pages, List.map_map]
    apply List.map_congr_left
    intro p _hp
    simp only [Function.comp_apply]
    have ht : hasKey (delKey (delKey p.node "/Tabs") "/StructParents") "/Tabs" = false := by
      rw [hasKey_delKey_other _ _ _ (by decide)]
      exact hasKey_delKey_self _ _
    rw [delKey_eq_self _ _ ht, delKey_eq_self _ _ (hasKey_delKey_self _ _)]

theorem strip_idem_all : ∀ n : Nat,
    (∀ v : PVal, sizeOf v ≤ n → stripDeep (stripDeep v) = stripDeep v) ∧
    (∀ es : List (String × PVal), sizeOf es ≤ n →
      stripEntries (stripEntries es) = stripEntries es) ∧
    (∀ xs : List PVal, sizeOf xs ≤ n → stripList (stripList xs) = stripList xs) := by
  intro n
  induction n with
  | zero =>
    refine ⟨?_, ?_, ?_⟩
    · intro v hv; exact absurd hv (by cases v <;> simp)
    · intro es hv; exact absurd hv (by cases es <;> simp)
    · intro xs hv; exact absurd hv (by cases xs <;> simp)
  | succ n ih =>
    obtain ⟨ihv, ihe, ihl⟩ := ih
    refine ⟨?_, ?_, ?_⟩
    · intro v hv
      cases v with
      | pdict es =>
        have hes : sizeOf es ≤ n := by simp at hv; omega
        simp only [stripDeep]
        rw [ihe es hes]
      | parr xs =>
        have hxs : sizeOf xs ≤ n := by simp at hv; omega
        simp only [stripDeep]
        rw [ihl xs hxs]
      | null => rfl
      | pname s => rfl
      | pnum m => rfl
      | pref i => rfl
    · intro es hv
      cases es with
      | nil => rfl
      | cons e rest =>
        obtain ⟨k, v2⟩ := e
        have hb : sizeOf v2 ≤ n ∧ sizeOf rest ≤ n := by
          simp at hv
          constructor <;> omega
        by_cases hk : (k == "/MarkInfo") = true
        · simp only [stripEntries, hk, if_true]
          exact ihe rest hb.2
        · simp only [Bool.not_eq_true] at hk
          simp only [stripEntries, hk, Bool.false_eq_true, if_false]
          rw [ihv v2 hb.1, ihe rest hb.2]
    · intro xs hv
      cases xs with
      | nil => rfl
      | cons x rest =>
        have hb : sizeOf x ≤ n ∧ sizeOf rest ≤ n := by
          simp at hv
          constructor <;> omega
        simp only [stripList]
        rw [ihv x hb.1, ihl rest hb.2]

theorem stripDeep_idem (v : PVal) : stripDeep (stripDeep v) = stripDeep v :=
  (strip_idem_all (sizeOf v)).1 v le_rfl

theorem stripEntries_idem (es : List (String × PVal)) :
    stripEntries (stripEntries es) = stripEntries es :=
  (strip_idem_all (sizeOf es)).2.1 es le_rfl

theorem stripList_idem (xs : List PVal) :
    stripList (stripList xs) = stripList xs :=
  (strip_idem_all (sizeOf xs)).2.2 xs le_rfl

theorem tlookup_cons_pos (e : Nat × PVal) (rest : PTable) (i : Nat)
    (h : (e.1 == i) = true) : tlookup (e :: rest) i = some e.2 := by
  unfold tlookup
  rw [@List.find?_cons_of_pos (Nat × PVal) (fun x => x.1 == i) e rest h]
  rfl

theorem tlookup_cons_neg (e : Nat × PVal) (rest : PTable) (i : Nat)
    (h : (e.1 == i) = false) : tlookup (e :: rest) i = tlookup rest i := by
  unfold tlookup
  rw [@List.find?_cons_of_neg (Nat × PVal) (fun x => x.1 == i) e rest (by simp [h])]

theorem tlookup_map_cond (t : PTable) (r0 : List Nat) (i : Nat) :
    tlookup (t.map (fun e => if r0.contains e.1 then (e.1, stripDeep e.2) else e)) i =
      (tlookup t i).map (fun v => if r0.contains i then stripDeep v else v) := by
  induction t with
  | nil => rfl
  | cons e rest ih =>
    rcases e with ⟨a, v⟩
    simp only [List.map_cons]
    by_cases h : (a == i) = true
    · have he : a = i := by simpa using h
      subst he
      by_cases hm : a ∈ r0
      · rw [show (if r0.contains (a, v).1 then ((a, v).1, stripDeep (a, v).2) else (a, v)) =
            (a, stripDeep v) from by simp [hm]]
        rw [tlookup_cons_pos _ _ _ h, tlookup_cons_pos _ _ _ h]
        simp [hm]
      · rw [show (if r0.contains (a, v).1 then ((a, v).1, stripDeep (a, v).2) else (a, v)) =
            (a, v) from by simp [hm]]
        rw [tlookup_cons_pos _ _ _ h, tlookup_cons_pos _ _ _ h]
        simp [hm]
    · simp only [Bool.not_eq_true] at h
      by_cases hm : a ∈ r0
      · rw [show (if r0.contains (a, v).1 then ((a, v).1, stripDeep (a, v).2) else (a, v)) =
            (a, stripDeep v) from by simp [hm]]
        rw [tlookup_cons_neg _ _ _ h, tlookup_cons_neg _ _ _ h]
        exact ih
      · rw [show (if r0.contains (a, v).1 then ((a, v).1, stripDeep (a, v).2) else (a, v)) =
            (a, v) from by simp [hm]]
        rw [tlookup_cons_neg _ _ _ h, tlookup_cons_neg _ _ _ h]
        exact ih

theorem reachStep_scrubbed (t : PTable) (r0 : List Nat) (s : List Nat) :
    reachStep (t.map (fun e => if r0.contains e.1 then (e.1, stripDeep e.2) else e)) s =
      reachStep t s := by
  unfold reachStep
  congr 3
  apply List.map_congr_left
  intro i _hi
  rw [tlookup_map_cond]
  cases h : tlookup t i with
  | none => rfl
  | some v =>
    simp only [Option.map_some']
    by_cases hm : i ∈ r0
    · rw [show (if r0.contains i then stripDeep v else v) = stripDeep v from by simp [hm]]
      rw [show stripDeep (stripDeep v) = stripDeep v from stripDeep_idem v]
    · rw [show (if r0.contains i then stripDeep v else v) = v from by simp [hm]]

theorem reachSet_scrubbed (t : PTable) (r0 : List Nat) (root : PVal) :
    reachSet (t.map (fun e => if r0.contains e.1 then (e.1, stripDeep e.2) else e)) root =
      reachSet t root := by
  unfold reachSet
  have hf : reachStep (t.map (fun e => if r0.contains e.1 then (e.1, stripDeep e.2) else e)) =
      reachStep t := funext (fun s => reachStep_scrubbed t r0 s)
  rw [hf, List.length_map]

theorem scrub_idem (t : PTable) (root : PVal) :
    (scrub_markinfo_anywhere (scrub_markinfo_anywhere t root).1 root).1 =
      (scrub_markinfo_anywhere t root).1 := by
  unfold scrub_markinfo_anywhere
  simp only
  rw [reachSet_scrubbed t (reachSet t root) root, List.map_map]
  apply List.map_congr_left
  intro e _he
  simp only [Function.comp_apply]
  by_cases hm : e.1 ∈ reachSet t root
  · rw [show (if (reachSet t root).contains e.1 then (e.1, stripDeep e.2) else e) =
        (e.1, stripDeep e.2) from by simp [hm]]
    simp [hm, stripDeep_idem]
  · have hg : (if (reachSet t root).contains e.1 then (e.1, stripDeep e.2) else e) = e := by
      simp [hm]
    rw [hg, hg]

theorem mem_pDelKey {es : List (String × PVal)} {k : String} {e : String × PVal}
    (h : e ∈ pDelKey es k) : e ∈ es ∧ ¬ e.1 = k := by
  unfold pDelKey at h
  have := List.mem_filter.mp h
  refine ⟨this.1, ?_⟩
  have h2 := this.2
  simp at h2
  exact h2

theorem pDelKey_eq_self {es : List (String × PVal)} {k : String}
    (h : ∀ e ∈ es, ¬ e.1 = k) : pDelKey es k = es := by
  unfold pDelKey
  rw [List.filter_eq_self.mpr]
  intro e he
  simp [h e he]

theorem pGet_pDelKey_other (es : List (String × PVal)) (k k2 : String)
    (hne : ¬ k2 = k) : pGet (pDelKey es k) k2 = pGet es k2 := by
  induction es with
  | nil => rfl
  | cons e rest ih =>
    by_cases h : (e.1 == k) = true
    · have he : e.1 = k := by simpa using h
      have h2 : (e.1 == k2) = false := by
        simp [he]
        intro hc
        exact hne hc.symm
      simp only [pDelKey, List.filter_cons, h, Bool.not_true, Bool.false_eq_true, if_false]
      unfold pDelKey at ih
      rw [ih]
      simp [pGet, List.find?_cons, h2]
    · simp only [Bool.not_eq_true] at h
      simp only [pDelKey, List.filter_cons, h, Bool.not_false, if_true]
      unfold pGet at ih ⊢
      simp only [List.find?_cons]
      cases hx : (e.1 == k2) with
      | true => rfl
      | false => exact ih

theorem mem_pSetKey {es : List (String × PVal)} {k : String} {v : PVal}
    {e : String × PVal} (h : e ∈ pSetKey es k v) :
    ∃ e0 ∈ es, e.1 = e0.1 := by
  induction es with
  | nil => simp [pSetKey] at h
  | cons a rest ih =>
    unfold pSetKey at h
    by_cases ha : (a.1 == k) = true
    · rw [if_pos ha] at h
      rcases List.mem_cons.mp h with he | he
      · exact ⟨a, List.mem_cons_self a rest, by rw [he]⟩
      · exact ⟨e, List.mem_cons_of_mem a he, rfl⟩
    · rw [if_neg ha] at h
      rcases List.mem_cons.mp h with he | he
      · exact ⟨a, List.mem_cons_self a rest, by rw [he]⟩
      · rcases ih he with ⟨e0, he0, hk⟩
        exact ⟨e0, List.mem_cons_of_mem a he0, hk⟩

theorem pGet_pSetKey_found (es : List (String × PVal)) (k : String) (v w : PVal)
    (h : pGet es k = some w) : pGet (pSetKey es k v) k = some v := by
  induction es with
  | nil => simp [pGet] at h
  | cons a rest ih =>
    unfold pSetKey
    by_cases ha : (a.1 == k) = true
    · rw [if_pos ha]
      simp [pGet, List.find?_cons, ha]
    · rw [if_neg ha]
      have ha2 : (a.1 == k) = false := by simpa using ha
      unfold pGet at h ⊢
      simp only [List.find?_cons, ha2] at h ⊢
      exact ih h

theorem pSetKey_eq_self (es : List (String × PVal)) (k : String) (v : PVal)
    (h : pGet es k = some v) : pSetKey es k v = es := by
  induction es with
  | nil => rfl
  | cons a rest ih =>
    unfold pSetKey
    by_cases ha : (a.1 == k) = true
    · rw [if_pos ha]
      unfold pGet at h
      simp only [List.find?_cons, ha] at h
      cases h
      rfl
    · rw [if_neg ha]
      have ha2 : (a.1 == k) = false := by simpa using ha
      unfold pGet at h ih
      simp only [List.find?_cons, ha2] at h
      rw [ih h]

theorem tlookup_tupdate_self (t : PTable) (i : Nat) (f : PVal → PVal) :
    tlookup (tupdate t i f) i = (tlookup t i).map f := by
  induction t with
  | nil => rfl
  | cons e rest ih =>
    unfold tupdate
    by_cases h : (e.1 == i) = true
    · rw [if_pos h]
      rw [tlookup_cons_pos e rest i h, tlookup_cons_pos (e.1, f e.2) rest i h]
      rfl
    · rw [if_neg h]
      have h2 : (e.1 == i) = false := by simpa using h
      rw [tlookup_cons_neg _ _ _ h2, tlookup_cons_neg _ _ _ h2]
      exact ih

theorem tlookup_tupdate_ne (t : PTable) (i j : Nat) (f : PVal → PVal)
    (hne : ¬ i = j) : tlookup (tupdate t j f) i = tlookup t i := by
  induction t with
  | nil => rfl
  | cons e rest ih =>
    unfold tupdate
    by_cases h : (e.1 == j) = true
    · rw [if_pos h]
      have he : e.1 = j := by simpa using h
      have h2 : (e.1 == i) = false := by
        simp [he]
        intro hc
        exact hne hc.symm
      rw [tlookup_cons_neg e rest i h2, tlookup_cons_neg (e.1, f e.2) rest i h2]
    · rw [if_neg h]
      by_cases hi : (e.1 == i) = true
      · rw [tlookup_cons_pos _ _ _ hi, tlookup_cons_pos _ _ _ hi]
      · have h2 : (e.1 == i) = false := by simpa using hi
        rw [tlookup_cons_neg _ _ _ h2, tlookup_cons_neg _ _ _ h2]
        exact ih

theorem tupdate_congr (t : PTable) (i : Nat) (f : PVal → PVal)
    (h : ∀ v, tlookup t i = some v → f v = v) : tupdate t i f = t := by
  induction t with
  | nil => rfl
  | cons e rest ih =>
    unfold tupdate
    by_cases hk : (e.1 == i) = true
    · rw [if_pos hk]
      have := h e.2 (tlookup_cons_pos _ _ _ hk)
      rw [this]
    · rw [if_neg hk]
      have hk2 : (e.1 == i) = false := by simpa using hk
      rw [ih (fun v hv => h v (by rw [tlookup_cons_neg _ _ _ hk2]; exact hv))]

theorem mem_stripEntries {es : List (String × PVal)} {e : String × PVal}
    (h : e ∈ stripEntries es) :
    ∃ e0 ∈ es, e.1 = e0.1 ∧ e.2 = stripDeep e0.2 := by
  induction es with
  | nil => simp [stripEntries] at h
  | cons a rest ih =>
    unfold stripEntries at h
    by_cases ha : (a.1 == "/MarkInfo") = true
    · rw [if_pos ha] at h
      rcases ih h with ⟨e0, he0, hk⟩
      exact ⟨e0, List.mem_cons_of_mem a he0, hk⟩
    · rw [if_neg ha] at h
      rcases List.mem_cons.mp h with he | he
      · exact ⟨a, List.mem_cons_self a rest, by rw [he], by rw [he]⟩
      · rcases ih he with ⟨e0, he0, hk⟩
        exact ⟨e0, List.mem_cons_of_mem a he0, hk⟩

theorem mem_stripList {xs : List PVal} {a : PVal} (h : a ∈ stripList xs) :
    ∃ a0 ∈ xs, a = stripDeep a0 := by
  induction xs with
  | nil => simp [stripList] at h
  | cons x rest ih =>
    unfold stripList at h
    rcases List.mem_cons.mp h with he | he
    · exact ⟨x, List.mem_cons_self x rest, he⟩
    · rcases ih he with ⟨a0, ha0, hk⟩
      exact ⟨a0, List.mem_cons_of_mem x ha0, hk⟩

theorem pGet_stripEntries (es : List (String × PVal)) (k : String)
    (hk : ¬ k = "/MarkInfo") :
    pGet (stripEntries es) k = (pGet es k).map stripDeep := by
  induction es with
  | nil => rfl
  | cons a rest ih =>
    unfold stripEntries
    by_cases ha : (a.1 == "/MarkInfo") = true
    · rw [if_pos ha]
      have hne : (a.1 == k) = false := by
        have : a.1 = "/MarkInfo" := by simpa using ha
        simp [this]
        intro hc
        exact hk hc.symm
      rw [ih]
      unfold pGet
      simp [List.find?_cons, hne]
    · rw [if_neg ha]
      by_cases hak : (a.1 == k) = true
      · unfold pGet
        simp [List.find?_cons, hak]
      · have hak2 : (a.1 == k) = false := by simpa using hak
        unfold pGet at ih ⊢
        simp only [List.find?_cons, hak2] at ih ⊢
        exact ih

/-- A value whose top-level dictionary (if it is one) carries none of
the keys in `ks`. -/
def NoTopKeysP (ks : List String) : PVal → Prop
  | PVal.pdict es => ∀ e ∈ es, ¬ e.1 ∈ ks
  | _ => True

/-- Property `P` holds of whatever is stored at id `i`. -/
def TableProp (P : PVal → Prop) (t : PTable) (i : Nat) : Prop :=
  ∀ v, tlookup t i = some v → P v

theorem tableProp_tupdate {P : PVal → Prop} {t : PTable} {i : Nat} (j : Nat)
    {f : PVal → PVal} (hP : TableProp P t i)
    (hf : i = j → ∀ v, tlookup t j = some v → P v → P (f v)) :
    TableProp P (tupdate t j f) i := by
  intro w hw
  by_cases hij : i = j
  · subst hij
    rw [tlookup_tupdate_self] at hw
    cases hv : tlookup t i with
    | none => rw [hv] at hw; cases hw
    | some v =>
      rw [hv] at hw
      cases hw
      exact hf rfl v hv (hP v hv)
  · rw [tlookup_tupdate_ne _ _ _ _ hij] at hw
    exact hP w hw

theorem tableProp_tupdate_pres {P : PVal → Prop} {t : PTable} {i : Nat} (j : Nat)
    {f : PVal → PVal} (hP : TableProp P t i)
    (hf : ∀ v, P v → P (f v)) : TableProp P (tupdate t j f) i :=
  tableProp_tupdate j hP (fun _ v _ hv => hf v hv)

theorem noTop_pDelKey {ks : List String} {es : List (String × PVal)} {k : String}
    (h : NoTopKeysP ks (PVal.pdict es)) :
    NoTopKeysP ks (PVal.pdict (pDelKey es k)) := by
  intro e he
  exact h e (mem_pDelKey he).1

theorem noTop_pSetKey {ks : List String} {es : List (String × PVal)} {k : String}
    {v : PVal} (h : NoTopKeysP ks (PVal.pdict es)) :
    NoTopKeysP ks (PVal.pdict (pSetKey es k v)) := by
  intro e he
  rcases mem_pSetKey he with ⟨e0, he0, hk⟩
  rw [hk]
  exact h e0 he0

theorem noTop_stripDeep {ks : List String} {v : PVal} (h : NoTopKeysP ks v) :
    NoTopKeysP ks (stripDeep v) := by
  cases v with
  | pdict es =>
    intro e he
    rcases mem_stripEntries he with ⟨e0, he0, hk, _⟩
    rw [hk]
    exact h e0 he0
  | parr xs => trivial
  | null => trivial
  | pname s => trivial
  | pnum n => trivial
  | pref i => trivial

/-- The value written into an annotation entry by `stripAnnot`:
preserves every `NoTopKeysP`. -/
theorem noTop_annotFun {ks : List String} (v : PVal) (h : NoTopKeysP ks v) :
    NoTopKeysP ks (delStructParentF v) := by
  cases v with
  | pdict es => exact noTop_pDelKey h
  | parr xs => trivial
  | null => trivial
  | pname s => trivial
  | pnum n => trivial
  | pref i => trivial

theorem noTop_stripAnnotsArr {ks : List String} (xs : List PVal) :
    ∀ (t : PTable) (i : Nat), TableProp (NoTopKeysP ks) t i →
      TableProp (NoTopKeysP ks) (stripAnnotsArr t xs).1 i := by
  induction xs with
  | nil => intro t i h; exact h
  | cons a rest ih =>
    intro t i h
    unfold stripAnnotsArr
    apply ih
    cases a with
    | pref m => exact tableProp_tupdate_pres m h (fun v hv => noTop_annotFun v hv)
    | pdict aes => exact h
    | parr ys => exact h
    | null => exact h
    | pname s => exact h
    | pnum n => exact h

/-- The catalog keys the targeted pass of `strip_tags` deletes. -/
def bad4 : List String := ["/StructTreeRoot", "/RoleMap", "/ClassMap", "/MarkInfo"]

theorem noTop_rootPassF (v : PVal) : NoTopKeysP bad4 (rootPassF v) := by
  cases v with
  | pdict es =>
    intro e he
    have h1 := mem_pDelKey he
    have h2 := mem_pDelKey h1.1
    have h3 := mem_pDelKey h2.1
    have h4 := mem_pDelKey h3.1
    intro hmem
    simp only [bad4, List.mem_cons, List.not_mem_nil, or_false] at hmem
    rcases hmem with h | h | h | h
    · exact h4.2 h
    · exact h3.2 h
    · exact h2.2 h
    · exact h1.2 h
  | parr xs => trivial
  | null => trivial
  | pname s => trivial
  | pnum n => trivial
  | pref i => trivial

theorem rootPassF_of_noTop (v : PVal) (h : NoTopKeysP bad4 v) : rootPassF v = v := by
  cases v with
  | pdict es =>
    have hof : ∀ (k : String), k ∈ bad4 → ∀ e ∈ es, ¬ e.1 = k := by
      intro k hk e he hc
      exact h e he (by rw [hc]; exact hk)
    simp only [rootPassF]
    rw [pDelKey_eq_self (hof "/StructTreeRoot" (by simp [bad4])),
      pDelKey_eq_self (hof "/RoleMap" (by simp [bad4])),
      pDelKey_eq_self (hof "/ClassMap" (by simp [bad4])),
      pDelKey_eq_self (hof "/MarkInfo" (by simp [bad4]))]
  | parr xs => rfl
  | null => rfl
  | pname s => rfl
  | pnum n => rfl
  | pref i => rfl

theorem noTop_setAnnotsF {ks : List String} (xs : List PVal) (v : PVal)
    (h : NoTopKeysP ks v) : NoTopKeysP ks (setAnnotsF xs v) := by
  cases v with
  | pdict es => exact noTop_pSetKey h
  | parr ys => trivial
  | null => trivial
  | pname s => trivial
  | pnum n => trivial
  | pref i => trivial

theorem pageStrip_none {t : PTable} {pid : Nat} (hlp : tlookup t pid = none) :
    pageStrip t pid = t := by
  simp only [pageStrip, hlp]

theorem pageStrip_parr {t : PTable} {pid : Nat} {xs : List PVal}
    (hlp : tlookup t pid = some (PVal.parr xs)) : pageStrip t pid = t := by
  simp only [pageStrip, hlp]

theorem pageStrip_null {t : PTable} {pid : Nat}
    (hlp : tlookup t pid = some PVal.null) : pageStrip t pid = t := by
  simp only [pageStrip, hlp]

theorem pageStrip_pname {t : PTable} {pid : Nat} {s : String}
    (hlp : tlookup t pid = some (PVal.pname s)) : pageStrip t pid = t := by
  simp only [pageStrip, hlp]

theorem pageStrip_pnum {t : PTable} {pid : Nat} {n : Int}
    (hlp : tlookup t pid = some (PVal.pnum n)) : pageStrip t pid = t := by
  simp only [pageStrip, hlp]

theorem pageStrip_pref {t : PTable} {pid : Nat} {m : Nat}
    (hlp : tlookup t pid = some (PVal.pref m)) : pageStrip t pid = t := by
  simp only [pageStrip, hlp]

theorem pageStrip_dict_noAnnots {t : PTable} {pid : Nat} {es : List (String × PVal)}
    (hlp : tlookup t pid = some (PVal.pdict es))
    (hg : pGet (pDelKey es "/StructParents") "/Annots" = none) :
    pageStrip t pid = tupdate t pid (fun _ => PVal.pdict (pDelKey es "/StructParents")) := by
  simp only [pageStrip, hlp, hg]

theorem pageStrip_dict_annots_dict {t : PTable} {pid : Nat} {es aes : List (String × PVal)}
    (hlp : tlookup t pid = some (PVal.pdict es))
    (hg : pGet (pDelKey es "/StructParents") "/Annots" = some (PVal.pdict aes)) :
    pageStrip t pid = tupdate t pid (fun _ => PVal.pdict (pDelKey es "/StructParents")) := by
  simp only [pageStrip, hlp, hg]

theorem pageStrip_dict_annots_null {t : PTable} {pid : Nat} {es : List (String × PVal)}
    (hlp : tlookup t pid = some (PVal.pdict es))
    (hg : pGet (pDelKey es "/StructParents") "/Annots" = some PVal.null) :
    pageStrip t pid = tupdate t pid (fun _ => PVal.pdict (pDelKey es "/StructParents")) := by
  simp only [pageStrip, hlp, hg]

theorem pageStrip_dict_annots_pname {t : PTable} {pid : Nat} {es : List (String × PVal)}
    {s : String} (hlp : tlookup t pid = some (PVal.pdict es))
    (hg : pGet (pDelKey es "/StructParents") "/Annots" = some (PVal.pname s)) :
    pageStrip t pid = tupdate t pid (fun _ => PVal.pdict (pDelKey es "/StructParents")) := by
  simp only [pageStrip, hlp, hg]

theorem pageStrip_dict_annots_pnum {t : PTable} {pid : Nat} {es : List (String × PVal)}
    {n : Int} (hlp : tlookup t pid = some (PVal.pdict es))
    (hg : pGet (pDelKey es "/StructParents") "/Annots" = some (PVal.pnum n)) :
    pageStrip t pid = tupdate t pid (fun _ => PVal.pdict (pDelKey es "/StructParents")) := by
  simp only [pageStrip, hlp, hg]

theorem pageStrip_dict_annots_arr {t : PTable} {pid : Nat} {es : List (String × PVal)}
    {xs : List PVal} (hlp : tlookup t pid = some (PVal.pdict es))
    (hg : pGet (pDelKey es "/StructParents") "/Annots" = some (PVal.parr xs)) :
    pageStrip t pid =
      tupdate (stripAnnotsArr
          (tupdate t pid (fun _ => PVal.pdict (pDelKey es "/StructParents"))) xs).1 pid
        (setAnnotsF (stripAnnotsArr
          (tupdate t pid (fun _ => PVal.pdict (pDelKey es "/StructParents"))) xs).2) := by
  simp only [pageStrip, hlp, hg]

theorem pageStrip_dict_annots_ref_arr {t : PTable} {pid : Nat} {es : List (String × PVal)}
    {j : Nat} {xs : List PVal}
    (hlp : tlookup t pid = some (PVal.pdict es))
    (hg : pGet (pDelKey es "/StructParents") "/Annots" = some (PVal.pref j))
    (hj : tlookup (tupdate t pid (fun _ => PVal.pdict (pDelKey es "/StructParents"))) j =
      some (PVal.parr xs)) :
    pageStrip t pid =
      tupdate (stripAnnotsArr
          (tupdate t pid (fun _ => PVal.pdict (pDelKey es "/StructParents"))) xs).1 j
        (fun _ => PVal.parr (stripAnnotsArr
          (tupdate t pid (fun _ => PVal.pdict (pDelKey es "/StructParents"))) xs).2) := by
  simp only [pageStrip, hlp, hg, hj]

theorem pageStrip_dict_annots_ref_none {t : PTable} {pid : Nat}
    {es : List (String × PVal)} {j : Nat}
    (hlp : tlookup t pid = some (PVal.pdict es))
    (hg : pGet (pDelKey es "/StructParents") "/Annots" = some (PVal.pref j))
    (hj : tlookup (tupdate t pid (fun _ => PVal.pdict (pDelKey es "/StructParents"))) j = none) :
    pageStrip t pid = tupdate t pid (fun _ => PVal.pdict (pDelKey es "/StructParents")) := by
  simp only [pageStrip, hlp, hg, hj]

theorem pageStrip_dict_annots_ref_dict {t : PTable} {pid : Nat}
    {es es2 : List (String × PVal)} {j : Nat}
    (hlp : tlookup t pid = some (PVal.pdict es))
    (hg : pGet (pDelKey es "/StructParents") "/Annots" = some (PVal.pref j))
    (hj : tlookup (tupdate t pid (fun _ => PVal.pdict (pDelKey es "/StructParents"))) j =
      some (PVal.pdict es2)) :
    pageStrip t pid = tupdate t pid (fun _ => PVal.pdict (pDelKey es "/StructParents")) := by
  simp only [pageStrip, hlp, hg, hj]

theorem pageStrip_dict_annots_ref_null {t : PTable} {pid : Nat}
    {es : List (String × PVal)} {j : Nat}
    (hlp : tlookup t pid = some (PVal.pdict es))
    (hg : pGet (pDelKey es "/StructParents") "/Annots" = some (PVal.pref j))
    (hj : tlookup (tupdate t pid (fun _ => PVal.pdict (pDelKey es "/StructParents"))) j =
      some PVal.null) :
    pageStrip t pid = tupdate t pid (fun _ => PVal.pdict (pDelKey es "/StructParents")) := by
  simp only [pageStrip, hlp, hg, hj]

theorem pageStrip_dict_annots_ref_pname {t : PTable} {pid : Nat}
    {es : List (String × PVal)} {j : Nat} {s : String}
    (hlp : tlookup t pid = some (PVal.pdict es))
    (hg : pGet (pDelKey es "/StructParents") "/Annots" = some (PVal.pref j))
    (hj : tlookup (tupdate t pid (fun _ => PVal.pdict (pDelKey es "/StructParents"))) j =
      some (PVal.pname s)) :
    pageStrip t pid = tupdate t pid (fun _ => PVal.pdict (pDelKey es "/StructParents")) := by
  simp only [pageStrip, hlp, hg, hj]

theorem pageStrip_dict_annots_ref_pnum {t : PTable} {pid : Nat}
    {es : List (String × PVal)} {j : Nat} {n : Int}
    (hlp : tlookup t pid = some (PVal.pdict es))
    (hg : pGet (pDelKey es "/StructParents") "/Annots" = some (PVal.pref j))
    (hj : tlookup (tupdate t pid (fun _ => PVal.pdict (pDelKey es "/StructParents"))) j =
      some (PVal.pnum n)) :
    pageStrip t pid = tupdate t pid (fun _ => PVal.pdict (pDelKey es "/StructParents")) := by
  simp only [pageStrip, hlp, hg, hj]

theorem pageStrip_dict_annots_ref_ref {t : PTable} {pid : Nat}
    {es : List (String × PVal)} {j m : Nat}
    (hlp : tlookup t pid = some (PVal.pdict es))
    (hg : pGet (pDelKey es "/StructParents") "/Annots" = some (PVal.pref j))
    (hj : tlookup (tupdate t pid (fun _ => PVal.pdict (pDelKey es "/StructParents"))) j =
      some (PVal.pref m)) :
    pageStrip t pid = tupdate t pid (fun _ => PVal.pdict (pDelKey es "/StructParents")) := by
  simp only [pageStrip, hlp, hg, hj]

theorem noTop_pageStrip {ks : List String} (t : PTable) (pid i : Nat)
    (hP : TableProp (NoTopKeysP ks) t i) :
    TableProp (NoTopKeysP ks) (pageStrip t pid) i := by
  cases hlp : tlookup t pid with
  | none => rw [pageStrip_none hlp]; exact hP
  | some v =>
    cases v with
    | pdict es =>
      have hupd : TableProp (NoTopKeysP ks)
          (tupdate t pid (fun _ => PVal.pdict (pDelKey es "/StructParents"))) i := by
        apply tableProp_tupdate pid hP
        intro heq v2 hv2 hPv2
        rw [hlp] at hv2
        cases hv2
        exact noTop_pDelKey hPv2
      cases hg : pGet (pDelKey es "/StructParents") "/Annots" with
      | none => rw [pageStrip_dict_noAnnots hlp hg]; exact hupd
      | some av =>
        cases av with
        | parr xs =>
          rw [pageStrip_dict_annots_arr hlp hg]
          exact tableProp_tupdate pid (noTop_stripAnnotsArr xs _ i hupd)
            (fun heq v2 hv2 hPv2 => noTop_setAnnotsF _ v2 hPv2)
        | pref j =>
          cases hj : tlookup (tupdate t pid
              (fun _ => PVal.pdict (pDelKey es "/StructParents"))) j with
          | none => rw [pageStrip_dict_annots_ref_none hlp hg hj]; exact hupd
          | some w =>
            cases w with
            | parr ys =>
              rw [pageStrip_dict_annots_ref_arr hlp hg hj]
              exact tableProp_tupdate j (noTop_stripAnnotsArr ys _ i hupd)
                (fun heq v2 hv2 hPv2 => trivial)
            | pdict es2 => rw [pageStrip_dict_annots_ref_dict hlp hg hj]; exact hupd
            | null => rw [pageStrip_dict_annots_ref_null hlp hg hj]; exact hupd
            | pname s => rw [pageStrip_dict_annots_ref_pname hlp hg hj]; exact hupd
            | pnum n => rw [pageStrip_dict_annots_ref_pnum hlp hg hj]; exact hupd
            | pref m => rw [pageStrip_dict_annots_ref_ref hlp hg hj]; exact hupd
        | pdict aes => rw [pageStrip_dict_annots_dict hlp hg]; exact hupd
        | null => rw [pageStrip_dict_annots_null hlp hg]; exact hupd
        | pname s => rw [pageStrip_dict_annots_pname hlp hg]; exact hupd
        | pnum n => rw [pageStrip_dict_annots_pnum hlp hg]; exact hupd
    | parr xs => rw [pageStrip_parr hlp]; exact hP
    | null => rw [pageStrip_null hlp]; exact hP
    | pname s => rw [pageStrip_pname hlp]; exact hP
    | pnum n => rw [pageStrip_pnum hlp]; exact hP
    | pref m => rw [pageStrip_pref hlp]; exact hP

theorem tableProp_fold_pageStrip {P : PVal → Prop}
    (hpres : ∀ (t : PTable) (pid i : Nat), TableProp P t i → TableProp P (pageStrip t pid) i) :
    ∀ (pids : List Nat) (t : PTable) (i : Nat),
      TableProp P t i → TableProp P (pids.foldl pageStrip t) i := by
  intro pids
  induction pids with
  | nil => intro t i h; exact h
  | cons x rest ih =>
    intro t i h
    exact ih (pageStrip t x) i (hpres t x i h)

theorem tableProp_scrub {P : PVal → Prop} (t : PTable) (root : PVal) (i : Nat)
    (hstrip : ∀ v, P v → P (stripDeep v))
    (hP : TableProp P t i) :
    TableProp P (scrub_markinfo_anywhere t root).1 i := by
  intro w hw
  unfold scrub_markinfo_anywhere at hw
  simp only at hw
  rw [tlookup_map_cond] at hw
  cases hv : tlookup t i with
  | none => rw [hv] at hw; cases hw
  | some v =>
    rw [hv] at hw
    simp only [Option.map_some'] at hw
    cases hw
    by_cases hc : (reachSet t root).contains i = true
    · rw [if_pos hc]
      exact hstrip v (hP v hv)
    · rw [if_neg hc]
      exact hP v hv

/-- One annotation-array element the scrub pass would leave unchanged:
a direct dictionary without `/StructParent`, a reference whose stored
object (if a dictionary) lacks `/StructParent`, or anything else. -/
def AnnotElemClean (t : PTable) : PVal → Prop
  | PVal.pdict aes => ∀ e ∈ aes, ¬ e.1 = "/StructParent"
  | PVal.pref m => TableProp (NoTopKeysP ["/StructParent"]) t m
  | _ => True

/-- Every element of an annotation array is clean. -/
def AnnotsClean (t : PTable) (xs : List PVal) : Prop :=
  ∀ a ∈ xs, AnnotElemClean t a

/-- The page at `pid` is in the normal form `pageStrip` establishes:
no `/StructParents` key, and its annotations (direct or through an
indirect array) are clean. -/
def PageClean (t : PTable) (pid : Nat) : Prop :=
  ∀ es, tlookup t pid = some (PVal.pdict es) →
    (∀ e ∈ es, ¬ e.1 = "/StructParents") ∧
    (∀ xs, pGet es "/Annots" = some (PVal.parr xs) → AnnotsClean t xs) ∧
    (∀ j xs, pGet es "/Annots" = some (PVal.pref j) →
      tlookup t j = some (PVal.parr xs) → AnnotsClean t xs)

theorem annotElem_noTop {aes : List (String × PVal)}
    (h : NoTopKeysP ["/StructParent"] (PVal.pdict aes)) :
    ∀ e ∈ aes, ¬ e.1 = "/StructParent" := by
  intro e he hc
  exact h e he (by rw [hc]; exact List.mem_singleton.mpr rfl)

theorem stripAnnot_id {t : PTable} {a : PVal} (ha : AnnotElemClean t a) :
    stripAnnot t a = (t, a) := by
  cases a with
  | pref m =>
    show (tupdate t m delStructParentF, PVal.pref m) = (t, PVal.pref m)
    rw [tupdate_congr]
    intro v hv
    cases v with
    | pdict aes =>
      show PVal.pdict (pDelKey aes "/StructParent") = PVal.pdict aes
      rw [pDelKey_eq_self (annotElem_noTop (ha (PVal.pdict aes) hv))]
    | parr ys => rfl
    | null => rfl
    | pname s => rfl
    | pnum n => rfl
    | pref m2 => rfl
  | pdict aes =>
    show (t, PVal.pdict (pDelKey aes "/StructParent")) = (t, PVal.pdict aes)
    rw [pDelKey_eq_self ha]
  | parr ys => rfl
  | null => rfl
  | pname s => rfl
  | pnum n => rfl

theorem stripAnnotsArr_id (xs : List PVal) :
    ∀ t, AnnotsClean t xs → stripAnnotsArr t xs = (t, xs) := by
  induction xs with
  | nil => intro t _h; rfl
  | cons a rest ih =>
    intro t h
    have ha := h a (List.mem_cons_self a rest)
    have hrest : AnnotsClean t rest := fun b hb => h b (List.mem_cons_of_mem a hb)
    show ((stripAnnotsArr (stripAnnot t a).1 rest).1,
        (stripAnnot t a).2 :: (stripAnnotsArr (stripAnnot t a).1 rest).2) = (t, a :: rest)
    rw [stripAnnot_id ha]
    simp only [ih t hrest]

theorem pageStrip_id (t : PTable) (pid : Nat) (hpc : PageClean t pid) :
    pageStrip t pid = t := by
  cases hlp : tlookup t pid with
  | none => exact pageStrip_none hlp
  | some v =>
    cases v with
    | pdict es =>
      obtain ⟨hsp, harr, href⟩ := hpc es hlp
      have hdel : pDelKey es "/StructParents" = es := pDelKey_eq_self hsp
      have ht1 : tupdate t pid (fun _ => PVal.pdict (pDelKey es "/StructParents")) = t := by
        apply tupdate_congr
        intro v hv
        rw [hlp] at hv
        cases hv
        rw [hdel]
      cases hg : pGet (pDelKey es "/StructParents") "/Annots" with
      | none => rw [pageStrip_dict_noAnnots hlp hg]; exact ht1
      | some av =>
        have hg2 : pGet es "/Annots" = some av := by rw [hdel] at hg; exact hg
        cases av with
        | parr xs =>
          have hclean := harr xs hg2
          rw [pageStrip_dict_annots_arr hlp hg, ht1, stripAnnotsArr_id xs t hclean]
          apply tupdate_congr
          intro v hv
          rw [hlp] at hv
          cases hv
          show PVal.pdict (pSetKey es "/Annots" (PVal.parr xs)) = PVal.pdict es
          rw [pSetKey_eq_self es "/Annots" _ hg2]
        | pref j =>
          cases hj : tlookup t j with
          | none =>
            rw [pageStrip_dict_annots_ref_none hlp hg (by rw [ht1]; exact hj)]
            exact ht1
          | some w =>
            cases w with
            | parr ys =>
              have hclean := href j ys hg2 hj
              rw [pageStrip_dict_annots_ref_arr hlp hg (by rw [ht1]; exact hj), ht1,
                stripAnnotsArr_id ys t hclean]
              apply tupdate_congr
              intro v hv
              rw [hj] at hv
              cases hv
              rfl
            | pdict es2 =>
              rw [pageStrip_dict_annots_ref_dict hlp hg (by rw [ht1]; exact hj)]
              exact ht1
            | null =>
              rw [pageStrip_dict_annots_ref_null hlp hg (by rw [ht1]; exact hj)]
              exact ht1
            | pname s =>
              rw [pageStrip_dict_annots_ref_pname hlp hg (by rw [ht1]; exact hj)]
              exact ht1
            | pnum n =>
              rw [pageStrip_dict_annots_ref_pnum hlp hg (by rw [ht1]; exact hj)]
              exact ht1
            | pref m =>
              rw [pageStrip_dict_annots_ref_ref hlp hg (by rw [ht1]; exact hj)]
              exact ht1
        | pdict aes => rw [pageStrip_dict_annots_dict hlp hg]; exact ht1
        | null => rw [pageStrip_dict_annots_null hlp hg]; exact ht1
        | pname s => rw [pageStrip_dict_annots_pname hlp hg]; exact ht1
        | pnum n => rw [pageStrip_dict_annots_pnum hlp hg]; exact ht1
    | parr xs => exact pageStrip_parr hlp
    | null => exact pageStrip_null hlp
    | pname s => exact pageStrip_pname hlp
    | pnum n => exact pageStrip_pnum hlp
    | pref m => exact pageStrip_pref hlp

theorem pDelKey_idem (es : List (String × PVal)) (k : String) :
    pDelKey (pDelKey es k) k = pDelKey es k :=
  pDelKey_eq_self (fun _ he => (mem_pDelKey he).2)

theorem noTop_delSP (v : PVal) :
    NoTopKeysP ["/StructParent"] (delStructParentF v) := by
  cases v with
  | pdict es =>
    intro e he hmem
    simp only [List.mem_singleton] at hmem
    exact (mem_pDelKey he).2 hmem
  | parr xs => trivial
  | null => trivial
  | pname s => trivial
  | pnum n => trivial
  | pref i => trivial

/-- The only change a `stripAnnot`-style table update can make to any
entry: leave it alone, or delete `/StructParent` from a dictionary. -/
def SPRel (t t2 : PTable) (m : Nat) : Prop :=
  tlookup t2 m = tlookup t m ∨
  (∃ es, tlookup t m = some (PVal.pdict es) ∧
    tlookup t2 m = some (PVal.pdict (pDelKey es "/StructParent")))

theorem spRel_refl (t : PTable) (m : Nat) : SPRel t t m := Or.inl rfl

theorem spRel_trans {t1 t2 t3 : PTable} {m : Nat}
    (h12 : SPRel t1 t2 m) (h23 : SPRel t2 t3 m) : SPRel t1 t3 m := by
  rcases h12 with h12 | ⟨es, he, h2⟩
  · rcases h23 with h23 | ⟨es, he, h3⟩
    · exact Or.inl (by rw [h23, h12])
    · rw [h12] at he
      exact Or.inr ⟨es, he, h3⟩
  · rcases h23 with h23 | ⟨es2, he2, h3⟩
    · exact Or.inr ⟨es, he, by rw [h23, h2]⟩
    · rw [h2] at he2
      cases he2
      exact Or.inr ⟨es, he, by rw [h3, pDelKey_idem]⟩

theorem tupdate_delSP_rel (t : PTable) (m2 m : Nat) :
    SPRel t (tupdate t m2 delStructParentF) m := by
  by_cases hm : m = m2
  · subst hm
    rw [SPRel, tlookup_tupdate_self]
    cases hv : tlookup t m with
    | none => exact Or.inl rfl
    | some v =>
      cases v with
      | pdict es => exact Or.inr ⟨es, rfl, rfl⟩
      | parr xs => exact Or.inl rfl
      | null => exact Or.inl rfl
      | pname s => exact Or.inl rfl
      | pnum n => exact Or.inl rfl
      | pref i => exact Or.inl rfl
  · exact Or.inl (tlookup_tupdate_ne _ _ _ _ hm)

theorem stripAnnotsArr_rel (xs : List PVal) :
    ∀ (t : PTable) (m : Nat), SPRel t (stripAnnotsArr t xs).1 m := by
  induction xs with
  | nil => intro t m; exact spRel_refl t m
  | cons a rest ih =>
    intro t m
    have hstep : SPRel t (stripAnnot t a).1 m := by
      cases a with
      | pref m2 => exact tupdate_delSP_rel t m2 m
      | pdict aes => exact spRel_refl t m
      | parr ys => exact spRel_refl t m
      | null => exact spRel_refl t m
      | pname s => exact spRel_refl t m
      | pnum n => exact spRel_refl t m
    have hrest := ih (stripAnnot t a).1 m
    show SPRel t (stripAnnotsArr (stripAnnot t a).1 rest).1 m
    exact spRel_trans hstep hrest

theorem annotsClean_mono {t t2 : PTable} {xs : List PVal}
    (h : AnnotsClean t xs)
    (hpres : ∀ m, TableProp (NoTopKeysP ["/StructParent"]) t m →
      TableProp (NoTopKeysP ["/StructParent"]) t2 m) :
    AnnotsClean t2 xs := by
  intro a ha
  have := h a ha
  cases a with
  | pref m => exact hpres m this
  | pdict aes => exact this
  | parr ys => trivial
  | null => trivial
  | pname s => trivial
  | pnum n => trivial

theorem stripAnnotsArr_noTopSP (xs : List PVal) (t : PTable) (i : Nat)
    (h : TableProp (NoTopKeysP ["/StructParent"]) t i) :
    TableProp (NoTopKeysP ["/StructParent"]) (stripAnnotsArr t xs).1 i :=
  noTop_stripAnnotsArr xs t i h

theorem stripAnnotsArr_clean (xs : List PVal) :
    ∀ t : PTable, AnnotsClean (stripAnnotsArr t xs).1 (stripAnnotsArr t xs).2 := by
  induction xs with
  | nil => intro t a ha; simp [stripAnnotsArr] at ha
  | cons a rest ih =>
    intro t b hb
    show AnnotElemClean (stripAnnotsArr (stripAnnot t a).1 rest).1 b
    have hsplit : b = (stripAnnot t a).2 ∨ b ∈ (stripAnnotsArr (stripAnnot t a).1 rest).2 := by
      rcases List.mem_cons.mp hb with h | h
      · exact Or.inl h
      · exact Or.inr h
    rcases hsplit with h | h
    · subst h
      cases a with
      | pref m =>
        show AnnotElemClean _ (PVal.pref m)
        have hbase : TableProp (NoTopKeysP ["/StructParent"])
            (tupdate t m delStructParentF) m := by
          intro v hv
          rw [tlookup_tupdate_self] at hv
          cases hw : tlookup t m with
          | none => rw [hw] at hv; cases hv
          | some w =>
            rw [hw] at hv
            simp only [Option.map_some'] at hv
            cases hv
            exact noTop_delSP w
        exact noTop_stripAnnotsArr rest _ m hbase
      | pdict aes =>
        show ∀ e ∈ pDelKey aes "/StructParent", ¬ e.1 = "/StructParent"
        intro e he
        exact (mem_pDelKey he).2
      | parr ys => trivial
      | null => trivial
      | pname s => trivial
      | pnum n => trivial
    · exact ih (stripAnnot t a).1 b h

theorem annotsClean_pageStrip {t : PTable} {xs : List PVal} (pid : Nat)
    (h : AnnotsClean t xs) : AnnotsClean (pageStrip t pid) xs :=
  annotsClean_mono h (fun m hm => noTop_pageStrip t pid m hm)

/-- Viewed from any other id `q`, a `pageStrip` run either leaves the
entry alone, deletes `/StructParent` from a dictionary entry, or
overwrites an indirect `/Annots` array with its already-clean stripped
form. -/
theorem pageStrip_lookup (t : PTable) (pid q : Nat) (hq : ¬ q = pid) :
    SPRel t (pageStrip t pid) q ∨
    (∃ zs, tlookup (pageStrip t pid) q = some (PVal.parr zs) ∧
      AnnotsClean (pageStrip t pid) zs) := by
  cases hlp : tlookup t pid with
  | none => rw [pageStrip_none hlp]; exact Or.inl (spRel_refl t q)
  | some v =>
    cases v with
    | pdict es =>
      have hrel1 : SPRel t
          (tupdate t pid (fun _ => PVal.pdict (pDelKey es "/StructParents"))) q :=
        Or.inl (tlookup_tupdate_ne t q pid _ hq)
      have ht1pid : tlookup
          (tupdate t pid (fun _ => PVal.pdict (pDelKey es "/StructParents"))) pid =
          some (PVal.pdict (pDelKey es "/StructParents")) := by
        rw [tlookup_tupdate_self, hlp]; rfl
      cases hg : pGet (pDelKey es "/StructParents") "/Annots" with
      | none => rw [pageStrip_dict_noAnnots hlp hg]; exact Or.inl hrel1
      | some av =>
        cases av with
        | parr xs =>
          rw [pageStrip_dict_annots_arr hlp hg]
          refine Or.inl (spRel_trans (spRel_trans hrel1 (stripAnnotsArr_rel xs _ q)) ?_)
          exact Or.inl (tlookup_tupdate_ne _ q pid _ hq)
        | pref j =>
          cases hj : tlookup
              (tupdate t pid (fun _ => PVal.pdict (pDelKey es "/StructParents"))) j with
          | none => rw [pageStrip_dict_annots_ref_none hlp hg hj]; exact Or.inl hrel1
          | some w =>
            cases w with
            | parr ys =>
              rw [pageStrip_dict_annots_ref_arr hlp hg hj]
              by_cases hqj : q = j
              · subst hqj
                have hRj : tlookup (stripAnnotsArr
                    (tupdate t pid (fun _ => PVal.pdict (pDelKey es "/StructParents"))) ys).1 q =
                    some (PVal.parr ys) := by
                  rcases stripAnnotsArr_rel ys _ q with hr | ⟨es0, he0, hr⟩
                  · rw [hr]; exact hj
                  · rw [hj] at he0; simp at he0
                refine Or.inr ⟨(stripAnnotsArr
                    (tupdate t pid (fun _ => PVal.pdict (pDelKey es "/StructParents"))) ys).2,
                  ?_, ?_⟩
                · rw [tlookup_tupdate_self, hRj]; rfl
                · exact annotsClean_mono (stripAnnotsArr_clean ys _)
                    (fun m hm => tableProp_tupdate q hm (fun _ v _ _ => trivial))
              · refine Or.inl (spRel_trans
                  (spRel_trans hrel1 (stripAnnotsArr_rel ys _ q)) ?_)
                exact Or.inl (tlookup_tupdate_ne _ q j _ hqj)
            | pdict es2 => rw [pageStrip_dict_annots_ref_dict hlp hg hj]; exact Or.inl hrel1
            | null => rw [pageStrip_dict_annots_ref_null hlp hg hj]; exact Or.inl hrel1
            | pname s => rw [pageStrip_dict_annots_ref_pname hlp hg hj]; exact Or.inl hrel1
            | pnum n => rw [pageStrip_dict_annots_ref_pnum hlp hg hj]; exact Or.inl hrel1
            | pref m => rw [pageStrip_dict_annots_ref_ref hlp hg hj]; exact Or.inl hrel1
        | pdict aes => rw [pageStrip_dict_annots_dict hlp hg]; exact Or.inl hrel1
        | null => rw [pageStrip_dict_annots_null hlp hg]; exact Or.inl hrel1
        | pname s => rw [pageStrip_dict_annots_pname hlp hg]; exact Or.inl hrel1
        | pnum n => rw [pageStrip_dict_annots_pnum hlp hg]; exact Or.inl hrel1
    | parr xs => rw [pageStrip_parr hlp]; exact Or.inl (spRel_refl t q)
    | null => rw [pageStrip_null hlp]; exact Or.inl (spRel_refl t q)
    | pname s => rw [pageStrip_pname hlp]; exact Or.inl (spRel_refl t q)
    | pnum n => rw [pageStrip_pnum hlp]; exact Or.inl (spRel_refl t q)
    | pref m => rw [pageStrip_pref hlp]; exact Or.inl (spRel_refl t q)

/-- A page id whose entry is an array after `pageStrip` already was
that array before: the pass never turns the page entry itself into an
array. -/
theorem pageStrip_pid_not_arr (t : PTable) (pid : Nat) (zs : List PVal)
    (h : tlookup (pageStrip t pid) pid = some (PVal.parr zs)) :
    tlookup t pid = some (PVal.parr zs) := by
  cases hlp : tlookup t pid with
  | none => rw [pageStrip_none hlp, hlp] at h; cases h
  | some v =>
    cases v with
    | parr xs => rw [pageStrip_parr hlp, hlp] at h; exact h
    | null => rw [pageStrip_null hlp, hlp] at h; simp at h
    | pname s => rw [pageStrip_pname hlp, hlp] at h; simp at h
    | pnum n => rw [pageStrip_pnum hlp, hlp] at h; simp at h
    | pref m => rw [pageStrip_pref hlp, hlp] at h; simp at h
    | pdict es =>
      exfalso
      have ht1pid : tlookup
          (tupdate t pid (fun _ => PVal.pdict (pDelKey es "/StructParents"))) pid =
          some (PVal.pdict (pDelKey es "/StructParents")) := by
        rw [tlookup_tupdate_self, hlp]; rfl
      cases hg : pGet (pDelKey es "/StructParents") "/Annots" with
      | none => rw [pageStrip_dict_noAnnots hlp hg, ht1pid] at h; simp at h
      | some av =>
        cases av with
        | parr xs =>
          rw [pageStrip_dict_annots_arr hlp hg, tlookup_tupdate_self] at h
          rcases stripAnnotsArr_rel xs
              (tupdate t pid (fun _ => PVal.pdict (pDelKey es "/StructParents"))) pid with
            hr | ⟨es0, he0, hr⟩
          · rw [hr, ht1pid] at h; simp [setAnnotsF] at h
          · rw [hr] at h; simp [setAnnotsF] at h
        | pref j =>
          cases hj : tlookup
              (tupdate t pid (fun _ => PVal.pdict (pDelKey es "/StructParents"))) j with
          | none => rw [pageStrip_dict_annots_ref_none hlp hg hj, ht1pid] at h; simp at h
          | some w =>
            cases w with
            | parr ys =>
              have hjp : ¬ j = pid := by
                intro he; rw [he, ht1pid] at hj; simp at hj
              rw [pageStrip_dict_annots_ref_arr hlp hg hj,
                tlookup_tupdate_ne _ _ _ _ (fun hc => hjp hc.symm)] at h
              rcases stripAnnotsArr_rel ys
                  (tupdate t pid (fun _ => PVal.pdict (pDelKey es "/StructParents"))) pid with
                hr | ⟨es0, he0, hr⟩
              · rw [hr, ht1pid] at h; simp at h
              · rw [hr] at h; simp at h
            | pdict es2 => rw [pageStrip_dict_annots_ref_dict hlp hg hj, ht1pid] at h; simp at h
            | null => rw [pageStrip_dict_annots_ref_null hlp hg hj, ht1pid] at h; simp at h
            | pname s => rw [pageStrip_dict_annots_ref_pname hlp hg hj, ht1pid] at h; simp at h
            | pnum n => rw [pageStrip_dict_annots_ref_pnum hlp hg hj, ht1pid] at h; simp at h
            | pref m => rw [pageStrip_dict_annots_ref_ref hlp hg hj, ht1pid] at h; simp at h
        | pdict aes => rw [pageStrip_dict_annots_dict hlp hg, ht1pid] at h; simp at h
        | null => rw [pageStrip_dict_annots_null hlp hg, ht1pid] at h; simp at h
        | pname s => rw [pageStrip_dict_annots_pname hlp hg, ht1pid] at h; simp at h
        | pnum n => rw [pageStrip_dict_annots_pnum hlp hg, ht1pid] at h; simp at h

/-- `pageStrip` establishes the clean normal form at its own page id. -/
theorem pageStrip_estab (t : PTable) (pid : Nat) :
    PageClean (pageStrip t pid) pid := by
  cases hlp : tlookup t pid with
  | none =>
    rw [pageStrip_none hlp]
    intro es' h'
    rw [hlp] at h'
    cases h'
  | some v =>
    cases v with
    | pdict es =>
      have ht1pid : tlookup
          (tupdate t pid (fun _ => PVal.pdict (pDelKey es "/StructParents"))) pid =
          some (PVal.pdict (pDelKey es "/StructParents")) := by
        rw [tlookup_tupdate_self, hlp]; rfl
      cases hg : pGet (pDelKey es "/StructParents") "/Annots" with
      | none =>
        rw [pageStrip_dict_noAnnots hlp hg]
        intro es' h'
        rw [ht1pid] at h'
        simp only [Option.some.injEq, PVal.pdict.injEq] at h'
        subst h'
        refine ⟨fun e he => (mem_pDelKey he).2, ?_, ?_⟩
        · intro xs hx; rw [hg] at hx; cases hx
        · intro j' xs h1 _h2; rw [hg] at h1; cases h1
      | some av =>
        cases av with
        | parr xs =>
          rw [pageStrip_dict_annots_arr hlp hg]
          intro es' h'
          rw [tlookup_tupdate_self] at h'
          obtain ⟨esx, hRx, hsub, hpg⟩ : ∃ esx,
              tlookup (stripAnnotsArr
                (tupdate t pid (fun _ => PVal.pdict (pDelKey es "/StructParents"))) xs).1 pid =
                some (PVal.pdict esx) ∧
              (∀ e ∈ esx, e ∈ pDelKey es "/StructParents") ∧
              pGet esx "/Annots" = pGet (pDelKey es "/StructParents") "/Annots" := by
            rcases stripAnnotsArr_rel xs
                (tupdate t pid (fun _ => PVal.pdict (pDelKey es "/StructParents"))) pid with
              hr | ⟨es0, he0, hr⟩
            · exact ⟨pDelKey es "/StructParents", by rw [hr, ht1pid], fun e he => he, rfl⟩
            · rw [ht1pid] at he0
              simp only [Option.some.injEq, PVal.pdict.injEq] at he0
              subst he0
              exact ⟨pDelKey (pDelKey es "/StructParents") "/StructParent", hr,
                fun e he => (mem_pDelKey he).1,
                pGet_pDelKey_other _ "/StructParent" "/Annots" (by decide)⟩
          rw [hRx] at h'
          simp only [Option.map_some', setAnnotsF, Option.some.injEq, PVal.pdict.injEq] at h'
          subst h'
          have hfound : pGet esx "/Annots" = some (PVal.parr xs) := by rw [hpg]; exact hg
          refine ⟨?_, ?_, ?_⟩
          · intro e he hc
            rcases mem_pSetKey he with ⟨e0, he0, hk⟩
            exact (mem_pDelKey (hsub e0 he0)).2 (by rw [← hk]; exact hc)
          · intro xs' hx
            rw [pGet_pSetKey_found esx "/Annots" _ _ hfound] at hx
            simp only [Option.some.injEq, PVal.parr.injEq] at hx
            subst hx
            exact annotsClean_mono (stripAnnotsArr_clean xs _)
              (fun m hm => tableProp_tupdate pid hm (fun _ v _ hv => noTop_setAnnotsF _ v hv))
          · intro j' xs' h1 _h2
            rw [pGet_pSetKey_found esx "/Annots" _ _ hfound] at h1
            simp at h1
        | pref j =>
          cases hj : tlookup
              (tupdate t pid (fun _ => PVal.pdict (pDelKey es "/StructParents"))) j with
          | none =>
            rw [pageStrip_dict_annots_ref_none hlp hg hj]
            intro es' h'
            rw [ht1pid] at h'
            simp only [Option.some.injEq, PVal.pdict.injEq] at h'
            subst h'
            refine ⟨fun e he => (mem_pDelKey he).2, ?_, ?_⟩
            · intro xs hx; rw [hg] at hx; simp at hx
            · intro j' xs h1 h2
              rw [hg] at h1
              simp only [Option.some.injEq, PVal.pref.injEq] at h1
              subst h1
              rw [hj] at h2
              cases h2
          | some w =>
            cases w with
            | parr ys =>
              have hjp : ¬ j = pid := by
                intro he; rw [he, ht1pid] at hj; simp at hj
              rw [pageStrip_dict_annots_ref_arr hlp hg hj]
              intro es' h'
              rw [tlookup_tupdate_ne _ _ _ _ (fun hc => hjp hc.symm)] at h'
              obtain ⟨esx, hRx, hsub, hpg⟩ : ∃ esx,
                  tlookup (stripAnnotsArr
                    (tupdate t pid (fun _ => PVal.pdict (pDelKey es "/StructParents"))) ys).1 pid =
                    some (PVal.pdict esx) ∧
                  (∀ e ∈ esx, e ∈ pDelKey es "/StructParents") ∧
                  pGet esx "/Annots" = pGet (pDelKey es "/StructParents") "/Annots" := by
                rcases stripAnnotsArr_rel ys
                    (tupdate t pid (fun _ => PVal.pdict (pDelKey es "/StructParents"))) pid with
                  hr | ⟨es0, he0, hr⟩
                · exact ⟨pDelKey es "/StructParents", by rw [hr, ht1pid], fun e he => he, rfl⟩
                · rw [ht1pid] at he0
                  simp only [Option.some.injEq, PVal.pdict.injEq] at he0
                  subst he0
                  exact ⟨pDelKey (pDelKey es "/StructParents") "/StructParent", hr,
                    fun e he => (mem_pDelKey he).1,
                    pGet_pDelKey_other _ "/StructParent" "/Annots" (by decide)⟩
              rw [hRx] at h'
              simp only [Option.some.injEq, PVal.pdict.injEq] at h'
              subst h'
              have hRj : tlookup (stripAnnotsArr
                  (tupdate t pid (fun _ => PVal.pdict (pDelKey es "/StructParents"))) ys).1 j =
                  some (PVal.parr ys) := by
                rcases stripAnnotsArr_rel ys
                    (tupdate t pid (fun _ => PVal.pdict (pDelKey es "/StructParents"))) j with
                  hr | ⟨es0, he0, hr⟩
                · rw [hr]; exact hj
                · rw [hj] at he0; simp at he0
              refine ⟨?_, ?_, ?_⟩
              · intro e he hc
                exact (mem_pDelKey (hsub e he)).2 hc
              · intro xs' hx
                rw [hpg, hg] at hx
                simp at hx
              · intro j' xs' h1 h2
                rw [hpg, hg] at h1
                simp only [Option.some.injEq, PVal.pref.injEq] at h1
                subst h1
                rw [tlookup_tupdate_self, hRj] at h2
                simp only [Option.map_some', Option.some.injEq, PVal.parr.injEq] at h2
                subst h2
                exact annotsClean_mono (stripAnnotsArr_clean ys _)
                  (fun m hm => tableProp_tupdate j hm (fun _ v _ _ => trivial))
            | pdict es2 =>
              rw [pageStrip_dict_annots_ref_dict hlp hg hj]
              intro es' h'
              rw [ht1pid] at h'
              simp only [Option.some.injEq, PVal.pdict.injEq] at h'
              subst h'
              refine ⟨fun e he => (mem_pDelKey he).2, ?_, ?_⟩
              · intro xs hx; rw [hg] at hx; simp at hx
              · intro j' xs h1 h2
                rw [hg] at h1
                simp only [Option.some.injEq, PVal.pref.injEq] at h1
                subst h1
                rw [hj] at h2
                simp at h2
            | null =>
              rw [pageStrip_dict_annots_ref_null hlp hg hj]
              intro es' h'
              rw [ht1pid] at h'
              simp only [Option.some.injEq, PVal.pdict.injEq] at h'
              subst h'
              refine ⟨fun e he => (mem_pDelKey he).2, ?_, ?_⟩
              · intro xs hx; rw [hg] at hx; simp at hx
              · intro j' xs h1 h2
                rw [hg] at h1
                simp only [Option.some.injEq, PVal.pref.injEq] at h1
                subst h1
                rw [hj] at h2
                simp at h2
            | pname s =>
              rw [pageStrip_dict_annots_ref_pname hlp hg hj]
              intro es' h'
              rw [ht1pid] at h'
              simp only [Option.some.injEq, PVal.pdict.injEq] at h'
              subst h'
              refine ⟨fun e he => (mem_pDelKey he).2, ?_, ?_⟩
              · intro xs hx; rw [hg] at hx; simp at hx
              · intro j' xs h1 h2
                rw [hg] at h1
                simp only [Option.some.injEq, PVal.pref.injEq] at h1
                subst h1
                rw [hj] at h2
                simp at h2
            | pnum n =>
              rw [pageStrip_dict_annots_ref_pnum hlp hg hj]
              intro es' h'
              rw [ht1pid] at h'
              simp only [Option.some.injEq, PVal.pdict.injEq] at h'
              subst h'
              refine ⟨fun e he => (mem_pDelKey he).2, ?_, ?_⟩
              · intro xs hx; rw [hg] at hx; simp at hx
              · intro j' xs h1 h2
                rw [hg] at h1
                simp only [Option.some.injEq, PVal.pref.injEq] at h1
                subst h1
                rw [hj] at h2
                simp at h2
            | pref m =>
              rw [pageStrip_dict_annots_ref_ref hlp hg hj]
              intro es' h'
              rw [ht1pid] at h'
              simp only [Option.some.injEq, PVal.pdict.injEq] at h'
              subst h'
              refine ⟨fun e he => (mem_pDelKey he).2, ?_, ?_⟩
              · intro xs hx; rw [hg] at hx; simp at hx
              · intro j' xs h1 h2
                rw [hg] at h1
                simp only [Option.some.injEq, PVal.pref.injEq] at h1
                subst h1
                rw [hj] at h2
                simp at h2
        | pdict aes =>
          rw [pageStrip_dict_annots_dict hlp hg]
          intro es' h'
          rw [ht1pid] at h'
          simp only [Option.some.injEq, PVal.pdict.injEq] at h'
          subst h'
          refine ⟨fun e he => (mem_pDelKey he).2, ?_, ?_⟩
          · intro xs hx; rw [hg] at hx; simp at hx
          · intro j' xs h1 _h2; rw [hg] at h1; simp at h1
        | null =>
          rw [pageStrip_dict_annots_null hlp hg]
          intro es' h'
          rw [ht1pid] at h'
          simp only [Option.some.injEq, PVal.pdict.injEq] at h'
          subst h'
          refine ⟨fun e he => (mem_pDelKey he).2, ?_, ?_⟩
          · intro xs hx; rw [hg] at hx; simp at hx
          · intro j' xs h1 _h2; rw [hg] at h1; simp at h1
        | pname s =>
          rw [pageStrip_dict_annots_pname hlp hg]
          intro es' h'
          rw [ht1pid] at h'
          simp only [Option.some.injEq, PVal.pdict.injEq] at h'
          subst h'
          refine ⟨fun e he => (mem_pDelKey he).2, ?_, ?_⟩
          · intro xs hx; rw [hg] at hx; simp at hx
          · intro j' xs h1 _h2; rw [hg] at h1; simp at h1
        | pnum n =>
          rw [pageStrip_dict_annots_pnum hlp hg]
          intro es' h'
          rw [ht1pid] at h'
          simp only [Option.some.injEq, PVal.pdict.injEq] at h'
          subst h'
          refine ⟨fun e he => (mem_pDelKey he).2, ?_, ?_⟩
          · intro xs hx; rw [hg] at hx; simp at hx
          · intro j' xs h1 _h2; rw [hg] at h1; simp at h1
    | parr xs =>
      rw [pageStrip_parr hlp]
      intro es' h'
      rw [hlp] at h'
      simp at h'
    | null =>
      rw [pageStrip_null hlp]
      intro es' h'
      rw [hlp] at h'
      simp at h'
    | pname s =>
      rw [pageStrip_pname hlp]
      intro es' h'
      rw [hlp] at h'
      simp at h'
    | pnum n =>
      rw [pageStrip_pnum hlp]
      intro es' h'
      rw [hlp] at h'
      simp at h'
    | pref m =>
      rw [pageStrip_pref hlp]
      intro es' h'
      rw [hlp] at h'
      simp at h'

/-- If an annotation-array target survives `pageStrip` as an array, it
is clean afterwards, provided it was clean before when untouched. -/
theorem pageStrip_annot_target (t : PTable) (pid j : Nat) (xs : List PVal)
    (h2 : tlookup (pageStrip t pid) j = some (PVal.parr xs))
    (hold : tlookup t j = some (PVal.parr xs) → AnnotsClean t xs) :
    AnnotsClean (pageStrip t pid) xs := by
  by_cases hjp : j = pid
  · subst hjp
    have htp := pageStrip_pid_not_arr t j xs h2
    rw [pageStrip_parr htp]
    exact hold htp
  · rcases pageStrip_lookup t pid j hjp with hrel | ⟨zs, hz, hcl⟩
    · rcases hrel with heq | ⟨es0, _he0, hT⟩
      · rw [heq] at h2
        exact annotsClean_pageStrip pid (hold h2)
      · rw [hT] at h2; simp at h2
    · rw [hz] at h2
      simp only [Option.some.injEq, PVal.parr.injEq] at h2
      subst h2
      exact hcl

/-- `pageStrip` at one page preserves the clean normal form of every
other page. -/
theorem pageStrip_pres (t : PTable) (pid q : Nat) (hq : ¬ q = pid)
    (hpc : PageClean t q) : PageClean (pageStrip t pid) q := by
  intro es' h'
  rcases pageStrip_lookup t pid q hq with hrel | ⟨zs, hz, _⟩
  · rcases hrel with heq | ⟨es0, he0, hT⟩
    · rw [heq] at h'
      obtain ⟨hi, hii, hiii⟩ := hpc es' h'
      refine ⟨hi, ?_, ?_⟩
      · intro xs hx
        exact annotsClean_pageStrip pid (hii xs hx)
      · intro j' xs h1 h2
        exact pageStrip_annot_target t pid j' xs h2 (fun ho => hiii j' xs h1 ho)
    · rw [hT] at h'
      simp only [Option.some.injEq, PVal.pdict.injEq] at h'
      subst h'
      obtain ⟨hi, hii, hiii⟩ := hpc es0 he0
      refine ⟨?_, ?_, ?_⟩
      · intro e he hc
        exact hi e (mem_pDelKey he).1 hc
      · intro xs hx
        rw [pGet_pDelKey_other es0 "/StructParent" "/Annots" (by decide)] at hx
        exact annotsClean_pageStrip pid (hii xs hx)
      · intro j' xs h1 h2
        rw [pGet_pDelKey_other es0 "/StructParent" "/Annots" (by decide)] at h1
        exact pageStrip_annot_target t pid j' xs h2 (fun ho => hiii j' xs h1 ho)
  · rw [hz] at h'; simp at h'

/-- Every page processed by the fold over the page list ends up clean. -/
theorem fold_pageStrip_clean (pids : List Nat) :
    ∀ (t : PTable) (q : Nat), (q ∈ pids ∨ PageClean t q) →
      PageClean (pids.foldl pageStrip t) q := by
  induction pids with
  | nil =>
    intro t q h
    rcases h with h | h
    · simp at h
    · exact h
  | cons x rest ih =>
    intro t q h
    show PageClean (rest.foldl pageStrip (pageStrip t x)) q
    by_cases hqx : q = x
    · subst hqx
      exact ih _ q (Or.inr (pageStrip_estab t q))
    · rcases h with h | h
      · rcases List.mem_cons.mp h with he | he
        · exact absurd he hqx
        · exact ih _ q (Or.inl he)
      · exact ih _ q (Or.inr (pageStrip_pres t x q hqx h))

theorem foldl_pageStrip_id : ∀ (pids : List Nat) (t : PTable),
    (∀ pid ∈ pids, pageStrip t pid = t) → pids.foldl pageStrip t = t := by
  intro pids
  induction pids with
  | nil => intro t _h; rfl
  | cons x rest ih =>
    intro t h
    show rest.foldl pageStrip (pageStrip t x) = t
    rw [h x (List.mem_cons_self x rest)]
    exact ih t (fun pid hm => h pid (List.mem_cons_of_mem x hm))

theorem annotElemClean_stripDeep (t : PTable) (root : PVal) {a : PVal}
    (h : AnnotElemClean t a) :
    AnnotElemClean (scrub_markinfo_anywhere t root).1 (stripDeep a) := by
  cases a with
  | pdict aes =>
    show ∀ e ∈ stripEntries aes, ¬ e.1 = "/StructParent"
    intro e he hc
    rcases mem_stripEntries he with ⟨e0, he0, hk, _⟩
    exact h e0 he0 (by rw [← hk]; exact hc)
  | pref m =>
    show TableProp (NoTopKeysP ["/StructParent"]) (scrub_markinfo_anywhere t root).1 m
    exact tableProp_scrub t root m (fun v hv => noTop_stripDeep hv) h
  | parr xs => trivial
  | null => trivial
  | pname s => trivial
  | pnum n => trivial

theorem annotsClean_scrub (t : PTable) (root : PVal) {ys : List PVal}
    (h : AnnotsClean t ys) :
    AnnotsClean (scrub_markinfo_anywhere t root).1 (stripList ys) := by
  intro a ha
  rcases mem_stripList ha with ⟨a0, ha0, rfl⟩
  exact annotElemClean_stripDeep t root (h a0 ha0)

theorem annotsClean_scrub_id (t : PTable) (root : PVal) {ys : List PVal}
    (h : AnnotsClean t ys) :
    AnnotsClean (scrub_markinfo_anywhere t root).1 ys :=
  annotsClean_mono h
    (fun m hm => tableProp_scrub t root m (fun _ hv => noTop_stripDeep hv) hm)

theorem tlookup_scrub (t : PTable) (root : PVal) (j : Nat) :
    tlookup (scrub_markinfo_anywhere t root).1 j =
      (tlookup t j).map
        (fun v => if (reachSet t root).contains j then stripDeep v else v) := by
  show tlookup (t.map
      (fun e => if (reachSet t root).contains e.1 then (e.1, stripDeep e.2) else e)) j = _
  exact tlookup_map_cond t (reachSet t root) j

theorem scrub_annot_target (t : PTable) (root : PVal) (j : Nat) (xs : List PVal)
    (h2 : tlookup (scrub_markinfo_anywhere t root).1 j = some (PVal.parr xs))
    (hold : ∀ ys, tlookup t j = some (PVal.parr ys) → AnnotsClean t ys) :
    AnnotsClean (scrub_markinfo_anywhere t root).1 xs := by
  rw [tlookup_scrub] at h2
  cases hv : tlookup t j with
  | none => rw [hv] at h2; cases h2
  | some w =>
    rw [hv] at h2
    simp only [Option.map_some', Option.some.injEq] at h2
    by_cases hc : (reachSet t root).contains j = true
    · rw [if_pos hc] at h2
      cases w with
      | parr ys =>
        have h3 : stripList ys = xs := PVal.parr.inj (show PVal.parr (stripList ys) = PVal.parr xs from h2)
        rw [← h3]
        exact annotsClean_scrub t root (hold ys hv)
      | pdict es => exact PVal.noConfusion (show PVal.pdict (stripEntries es) = PVal.parr xs from h2)
      | null => exact PVal.noConfusion (show PVal.null = PVal.parr xs from h2)
      | pname s => exact PVal.noConfusion (show PVal.pname s = PVal.parr xs from h2)
      | pnum n => exact PVal.noConfusion (show PVal.pnum n = PVal.parr xs from h2)
      | pref m => exact PVal.noConfusion (show PVal.pref m = PVal.parr xs from h2)
    · rw [if_neg hc] at h2
      subst h2
      exact annotsClean_scrub_id t root (hold xs hv)

/-- The deep `/MarkInfo` scrub preserves the clean normal form of a
page. -/
theorem pageClean_scrub (t : PTable) (root : PVal) (q : Nat)
    (hpc : PageClean t q) : PageClean (scrub_markinfo_anywhere t root).1 q := by
  intro es' h'
  rw [tlookup_scrub] at h'
  cases hv : tlookup t q with
  | none => rw [hv] at h'; cases h'
  | some w =>
    rw [hv] at h'
    simp only [Option.map_some', Option.some.injEq] at h'
    by_cases hc : (reachSet t root).contains q = true
    · rw [if_pos hc] at h'
      cases w with
      | pdict es0 =>
        have hes : stripEntries es0 = es' := PVal.pdict.inj (show PVal.pdict (stripEntries es0) = PVal.pdict es' from h')
        subst hes
        obtain ⟨hi, hii, hiii⟩ := hpc es0 hv
        refine ⟨?_, ?_, ?_⟩
        · intro e he hcx
          rcases mem_stripEntries he with ⟨e0, he0, hk, _⟩
          exact hi e0 he0 (by rw [← hk]; exact hcx)
        · intro xs hx
          rw [pGet_stripEntries es0 "/Annots" (by decide)] at hx
          cases hg0 : pGet es0 "/Annots" with
          | none => rw [hg0] at hx; cases hx
          | some w2 =>
            rw [hg0] at hx
            simp only [Option.map_some', Option.some.injEq] at hx
            cases w2 with
            | parr ys =>
              have h3 : stripList ys = xs := PVal.parr.inj (show PVal.parr (stripList ys) = PVal.parr xs from hx)
              rw [← h3]
              exact annotsClean_scrub t root (hii ys hg0)
            | pdict es2 => exact PVal.noConfusion (show PVal.pdict (stripEntries es2) = PVal.parr xs from hx)
            | null => exact PVal.noConfusion (show PVal.null = PVal.parr xs from hx)
            | pname s => exact PVal.noConfusion (show PVal.pname s = PVal.parr xs from hx)
            | pnum n => exact PVal.noConfusion (show PVal.pnum n = PVal.parr xs from hx)
            | pref m => exact PVal.noConfusion (show PVal.pref m = PVal.parr xs from hx)
        · intro j' xs h1 h2
          rw [pGet_stripEntries es0 "/Annots" (by decide)] at h1
          cases hg0 : pGet es0 "/Annots" with
          | none => rw [hg0] at h1; cases h1
          | some w2 =>
            rw [hg0] at h1
            simp only [Option.map_some', Option.some.injEq] at h1
            cases w2 with
            | pref m =>
              have h3 : m = j' := PVal.pref.inj (show PVal.pref m = PVal.pref j' from h1)
              subst h3
              exact scrub_annot_target t root m xs h2 (fun ys hy => hiii m ys hg0 hy)
            | parr ys => exact PVal.noConfusion (show PVal.parr (stripList ys) = PVal.pref j' from h1)
            | pdict es2 => exact PVal.noConfusion (show PVal.pdict (stripEntries es2) = PVal.pref j' from h1)
            | null => exact PVal.noConfusion (show PVal.null = PVal.pref j' from h1)
            | pname s => exact PVal.noConfusion (show PVal.pname s = PVal.pref j' from h1)
            | pnum n => exact PVal.noConfusion (show PVal.pnum n = PVal.pref j' from h1)
      | parr ys => exact PVal.noConfusion (show PVal.parr (stripList ys) = PVal.pdict es' from h')
      | null => exact PVal.noConfusion (show PVal.null = PVal.pdict es' from h')
      | pname s => exact PVal.noConfusion (show PVal.pname s = PVal.pdict es' from h')
      | pnum n => exact PVal.noConfusion (show PVal.pnum n = PVal.pdict es' from h')
      | pref m => exact PVal.noConfusion (show PVal.pref m = PVal.pdict es' from h')
    · rw [if_neg hc] at h'
      subst h'
      obtain ⟨hi, hii, hiii⟩ := hpc es' hv
      refine ⟨hi, ?_, ?_⟩
      · intro xs hx
        exact annotsClean_scrub_id t root (hii xs hx)
      · intro j' xs h1 h2
        exact scrub_annot_target t root j' xs h2 (fun ys hy => hiii j' ys h1 hy)

/-- After one full `strip_tags`, the catalog entry carries none of the
four keys the targeted pass deletes. -/
theorem strip_tags_root_noTop (p : PikePdf) :
    TableProp (NoTopKeysP bad4) (strip_tags p).table p.rootId := by
  have hA : TableProp (NoTopKeysP bad4) (tupdate p.table p.rootId rootPassF) p.rootId := by
    intro v hv
    rw [tlookup_tupdate_self] at hv
    cases hw : tlookup p.table p.rootId with
    | none => rw [hw] at hv; cases hv
    | some w =>
      rw [hw] at hv
      simp only [Option.map_some'] at hv
      cases hv
      exact noTop_rootPassF w
  have hB := tableProp_fold_pageStrip (fun t pid i h => noTop_pageStrip t pid i h)
    p.pageIds _ p.rootId hA
  exact tableProp_scrub _ (PVal.pref p.rootId) p.rootId (fun _ hv => noTop_stripDeep hv) hB

/-- After one full `strip_tags`, every listed page is in the clean
normal form. -/
theorem strip_tags_pages_clean (p : PikePdf) :
    ∀ pid ∈ p.pageIds, PageClean (strip_tags p).table pid := by
  intro pid hm
  exact pageClean_scrub _ (PVal.pref p.rootId) pid
    (fold_pageStrip_clean p.pageIds (tupdate p.table p.rootId rootPassF) pid (Or.inl hm))

/-- C7: the structural tag stripper is idempotent.  Running
`strip_tags` (the targeted catalog/page pass followed by the full-graph
`scrub_markinfo_anywhere` walk) a second time leaves the document state
unchanged, and the writer-level `_strip_tags_from_writer` is likewise
idempotent. -/
theorem strip_tags_idempotent (p : PikePdf) (w : PdfWriter) :
    strip_tags (strip_tags p) = strip_tags p ∧
    _strip_tags_from_writer (_strip_tags_from_writer w) = _strip_tags_from_writer w := by
  refine ⟨?_, strip_writer_idem w⟩
  have hroot := strip_tags_root_noTop p
  have hpages := strip_tags_pages_clean p
  have h1 : tupdate (strip_tags p).table p.rootId rootPassF = (strip_tags p).table :=
    tupdate_congr _ _ _ (fun v hv => rootPassF_of_noTop v (hroot v hv))
  have h2 : p.pageIds.foldl pageStrip (strip_tags p).table = (strip_tags p).table :=
    foldl_pageStrip_id p.pageIds _
      (fun pid hm => pageStrip_id _ pid (hpages pid hm))
  have h3 : (scrub_markinfo_anywhere (strip_tags p).table (PVal.pref p.rootId)).1 =
      (strip_tags p).table :=
    scrub_idem (p.pageIds.foldl pageStrip (tupdate p.table p.rootId rootPassF))
      (PVal.pref p.rootId)
  show (⟨(scrub_markinfo_anywhere
      ((strip_tags p).pageIds.foldl pageStrip
        (tupdate (strip_tags p).table (strip_tags p).rootId rootPassF))
      (PVal.pref (strip_tags p).rootId)).1,
    (strip_tags p).rootId, (strip_tags p).pageIds⟩ : PikePdf) = strip_tags p
  have hrid : (strip_tags p).rootId = p.rootId := rfl
  have hpid : (strip_tags p).pageIds = p.pageIds := rfl
  rw [hrid, hpid, h1, h2, h3]
  show (⟨(strip_tags p).table, p.rootId, p.pageIds⟩ : PikePdf) = strip_tags p
  rfl
